import Mathlib

/-!
Verification of the airbnb-scraper Go repository.

This file gives a shallow embedding, in Lean 4, of the parts of the
repository that the verified claims are about:

* `services/cleaner.go` — `parsePrice`, `parseRating`, `normaliseText`,
  `normalisePlatform` and `Clean`;
* `services/insights.go` — `Generate` (called `generateV1` here);
* the unnamed variant of `services/insights.go` (src/unnamed/part_010) —
  `Generate` (called `generateV2` here);
* `utils` (src/unnamed/part_008) — `WorkerPool.enforceRateLimit` and
  `URLSet.Add`;
* the retry helper `RetryConfig.Do` bundled with `storage/postgres_writer.go`.

Modelling conventions, used throughout and stated once here:

* Go `float64` values are modelled as exact rationals (`ℚ`).  Every
  concrete value appearing in the claims (`120`, `1200.50`, `4.85`, …) is
  exactly the rational denoted by its decimal literal.
* Go strings are modelled as `String` / `List Char`.  The repository's
  inputs are ASCII; `strings.TrimSpace` / `unicode.IsSpace` are modelled
  on the ASCII whitespace characters.
* The Go `regexp` package implements leftmost-first (Perl-style) matching.
  The three patterns used by the cleaner are simple enough that greedy
  matching with no cross-component backtracking is exact for them; each
  matcher below is a direct transcription of its pattern and the
  accompanying comment argues why maximal munch is faithful.
* Concurrency: the Go code guards all shared state (`URLSet.seen`,
  `WorkerPool.lastRequest`) with a mutex, so every concurrent execution
  linearises into a sequence of critical-section executions.  The models
  are those critical sections as state transitions, and the theorems
  quantify over arbitrary linearisations.
* `time.Now` / `time.Sleep` are modelled on a logical rational clock with
  exact sleeping; a task's observed start time is the instant the gate
  records into `lastRequest`.
-/

set_option maxRecDepth 40000

namespace AirbnbScraper

/-- Character list, the working representation of Go strings. -/
abbrev Str := List Char

/-- Go `unicode.IsSpace` restricted to ASCII: `'\t' '\n' '\v' '\f' '\r' ' '`. -/
def goIsSpace (c : Char) : Bool :=
  c = ' ' || c = '\t' || c = '\n' || c = '\x0b' || c = '\x0c' || c = '\r'

/-- ASCII word character, the class Go's `regexp` uses for `\b`. -/
def isWordChar (c : Char) : Bool :=
  c.isDigit || ('a' ≤ c && c ≤ 'z') || ('A' ≤ c && c ≤ 'Z') || c = '_'

/-- Numeric value of a digit string (`strconv` digit accumulation). -/
def digitsToNat (ds : Str) : ℕ :=
  ds.foldl (fun n c => 10 * n + (c.toNat - 48)) 0

/-- Go `strconv.Atoi`: errors (here: `none`) when the value overflows int64. -/
def goAtoi (ds : Str) : Option ℕ :=
  let v := digitsToNat ds
  if v ≤ 9223372036854775807 then some v else none

/-- Largest finite `float64`, `math.MaxFloat64 = (2 - 2⁻⁵²)·2¹⁰²³`, as a rational. -/
def maxFloat64 : ℚ := ((2 ^ 1024 - 2 ^ 971 : ℕ) : ℚ)

/-- Value of a decimal token shaped `digits` or `digits.digits`
(the shapes produced by the price and rating matchers, comma-free):
`ip.fr` with `k` fraction digits denotes `(ip·10ᵏ + fr) / 10ᵏ`, built with
`mkRat` so the kernel can evaluate it (`Rat.add`/`Rat.div` are
irreducible). -/
def parseDecQ (s : Str) : ℚ :=
  let ip := s.takeWhile Char.isDigit
  let rest := s.drop ip.length
  match rest with
  | '.' :: fr =>
    mkRat (digitsToNat ip * 10 ^ fr.length + digitsToNat fr) (10 ^ fr.length)
  | _ => (digitsToNat ip : ℚ)

/-- Go `strconv.ParseFloat` on such a token: out-of-range values give an
error (`none`); in-range values are the exact rational (see the `float64`
convention in the header). -/
def goParseFloat (s : Str) : Option ℚ :=
  let v := parseDecQ s
  if v ≤ maxFloat64 then some v else none

/-! ### priceRegexp

`priceRegexp = \$\s*(\d+(?:,\d{3})*(?:\.\d{2})?)` (services/cleaner.go line 16).

After the literal `$`, the components `\s*`, `\d+`, `(?:,\d{3})*` and
`(?:\.\d{2})?` have pairwise disjoint leading characters and everything
after `\d+` is optional, so the greedy (maximal-munch) parse below is
exactly the leftmost-first match. -/

/-- `(?:,\d{3})*`: greedily consume comma groups of exactly three digits;
returns (consumed, rest). -/
def commaGroups : Str → (Str × Str)
  | ',' :: a :: b :: c :: rest =>
    if a.isDigit && b.isDigit && c.isDigit then
      let (g, r) := commaGroups rest
      (',' :: a :: b :: c :: g, r)
    else ([], ',' :: a :: b :: c :: rest)
  | s => ([], s)

/-- `(?:\.\d{2})?`: a dot followed by exactly two digits, or nothing. -/
def fracOpt : Str → (Str × Str)
  | '.' :: a :: b :: rest =>
    if a.isDigit && b.isDigit then (['.', a, b], rest) else ([], '.' :: a :: b :: rest)
  | s => ([], s)

/-- Attempt the part of `priceRegexp` after the `$`; returns the captured
group (submatch 1). -/
def matchPriceAfterDollar (s : Str) : Option Str :=
  let s1 := s.dropWhile goIsSpace
  let ds := s1.takeWhile Char.isDigit
  if ds.isEmpty then none
  else
    let r1 := s1.drop ds.length
    let (cg, r2) := commaGroups r1
    let (fr, _) := fracOpt r2
    some (ds ++ cg ++ fr)

/-- `priceRegexp.FindAllStringSubmatch(s, -1)`, captured groups only.
A match of this pattern never contains a `$` after its first character, so
no match can start strictly inside an earlier match; scanning every
position (without jumping over matched text) therefore returns exactly
Go's non-overlapping leftmost matches. -/
def findAllPrices : Str → List Str
  | [] => []
  | c :: cs =>
    if c = '$' then
      match matchPriceAfterDollar cs with
      | some cap => cap :: findAllPrices cs
      | none => findAllPrices cs
    else findAllPrices cs

/-! ### nightsRegexp

`nightsRegexp = (\d+)\s*nights?` (services/cleaner.go line 18).
`FindStringSubmatch` returns the leftmost match; at a given start
position, shrinking the greedy `\d+` leaves a digit as the next character,
which can match neither `\s` nor `night`, so maximal munch is faithful.
The trailing optional `s` does not affect the captured group. -/

/-- Leftmost match of `nightsRegexp`, captured digit group. -/
def findNightsTok : Str → Option Str
  | [] => none
  | c :: cs =>
    if c.isDigit then
      let ds := (c :: cs).takeWhile Char.isDigit
      let aft := ((c :: cs).drop ds.length).dropWhile goIsSpace
      if "night".data.isPrefixOf aft then
        some ds
      else findNightsTok cs
    else findNightsTok cs

/-- The night count `parsePrice` uses: captured digits of the leftmost
`nightsRegexp` match, converted by `strconv.Atoi`. -/
def extractNights (s : Str) : Option ℕ :=
  (findNightsTok s).bind goAtoi

/-! ### parsePrice (services/cleaner.go lines 70–119) -/

/-- The `prices` slice built by `parsePrice`: each captured group has its
commas removed, is parsed by `ParseFloat`, and is kept when parsing
succeeded and the value is positive. -/
def positiveAmounts (s : Str) : List ℚ :=
  ((findAllPrices s).filterMap (fun cap => goParseFloat (cap.filter (· ≠ ',')))).filter
    (fun v => 0 < v)

/-- Exact division of a rational by a natural number, in kernel-reducible
form; agrees with `q / n` (lemma `qdivNat_eq`). -/
def qdivNat (q : ℚ) (n : ℕ) : ℚ := mkRat q.num (q.den * n)

theorem qdivNat_eq (q : ℚ) (n : ℕ) : qdivNat q n = q / (n : ℚ) := by
  rw [qdivNat, Rat.mkRat_eq_div]
  rcases Nat.eq_zero_or_pos n with hn | hn
  · subst hn
    simp
  · have hd : (q.den : ℚ) ≠ 0 := by
      exact_mod_cast q.den_nz
    have hnq : (n : ℚ) ≠ 0 := by
      exact_mod_cast hn.ne'
    have hq : (q.num : ℚ) = q * (q.den : ℚ) := (div_eq_iff hd).mp (Rat.num_div_den q)
    push_cast
    field_simp
    rw [hq]
    ring

/-- The `finalPrice` selection loop of `parsePrice`: start from the first
element and keep the strictly smaller one at each step (`0` is unreachable,
`parsePrice` returns earlier on an empty slice). -/
def lowestAmount : List ℚ → ℚ
  | [] => 0
  | p0 :: rest => (p0 :: rest).foldl (fun m p => if p < m then p else m) p0

/-- `(*Cleaner).parsePrice`.  Logger calls are omitted (no effect on the
returned value). -/
def parsePrice (raw : String) : ℚ :=
  if raw = "" ∨ raw = "N/A" then 0
  else
    let s := raw.data
    if findAllPrices s = [] then 0
    else if positiveAmounts s = [] then 0
    else
      let final := lowestAmount (positiveAmounts s)
      match extractNights s with
      | some n => if 1 < n then qdivNat final n else final
      | none => final

/-! ### ratingRegexp

`ratingRegexp = \b([0-5](?:\.\d{1,2})?)\b` (services/cleaner.go line 20).
`FindStringSubmatch` is leftmost-first: at each position with a word
boundary and a leading `[0-5]`, the greedy alternatives are tried in the
order two-decimal, one-decimal, bare digit, each followed by the `\b`
check; the first position where one succeeds wins. -/

/-- `\b` between the end of the candidate token and the remainder. -/
def boundaryAfter : Str → Bool
  | [] => true
  | c :: _ => !isWordChar c

/-- Try the three alternatives of `[0-5](?:\.\d{1,2})?` at one position
(leading digit `c`, remainder `cs`), greediest first. -/
def ratingTokAt (c : Char) (cs : Str) : Option Str :=
  match cs with
  | '.' :: d1 :: d2 :: rest =>
    if d1.isDigit && d2.isDigit && boundaryAfter rest then some [c, '.', d1, d2]
    else if d1.isDigit && boundaryAfter (d2 :: rest) then some [c, '.', d1]
    else if boundaryAfter cs then some [c]
    else none
  | '.' :: d1 :: rest =>
    if d1.isDigit && boundaryAfter rest then some [c, '.', d1]
    else if boundaryAfter cs then some [c]
    else none
  | _ => if boundaryAfter cs then some [c] else none

/-- Scan for the leftmost `ratingRegexp` match; `prev` is the character
before the scan position (`none` at the start of the string). -/
def ratingScan (prev : Option Char) : Str → Option Str
  | [] => none
  | c :: cs =>
    if (prev.all fun p => !isWordChar p) && '0' ≤ c && c ≤ '5' then
      match ratingTokAt c cs with
      | some tok => some tok
      | none => ratingScan (some c) cs
    else ratingScan (some c) cs

/-- Captured group of the leftmost `ratingRegexp` match. -/
def findRatingTok (s : Str) : Option Str := ratingScan none s

/-- Body of `parseRating` applied to a found token: `ParseFloat` then the
range check `val < 0 || val > 5`. -/
def ratingOfTok (tok : Str) : ℚ :=
  match goParseFloat tok with
  | none => 0
  | some val => if val < 0 ∨ 5 < val then 0 else val

/-- `(*Cleaner).parseRating` (services/cleaner.go lines 121–134). -/
def parseRating (raw : String) : ℚ :=
  match findRatingTok raw.data with
  | none => 0
  | some tok => ratingOfTok tok

end AirbnbScraper

namespace AirbnbScraper

/-! ### Claims C2, C3, C4 -/

/-- C2: literal price-parsing cases, evaluated on `parsePrice` as the code
defines it.  Four of the five values claimed by the spec hold; on
`"$120 night"` the code returns `1`, not `120`: `nightsRegexp` matches
`"120 night"`, so the price's own digits are taken as a night count and
the price is divided by itself.  The repository's own test
(`TestCleanerParsePrice`) expects `120` here, so this is a bug in the
code.  `parsePrice "free" = 0` records the no-amount fallback. -/
theorem parsePrice_literal_cases :
    parsePrice "$120 night" = 1 ∧
    parsePrice "$450 for 3 nights" = 150 ∧
    parsePrice "" = 0 ∧
    parsePrice "$1,200.50" = 1200.50 ∧
    parsePrice "$142 $66 for 2 nights" = 33 ∧
    parsePrice "free" = 0 := by
  have h : (mkRat 120050 100 : ℚ) = 1200.50 := by
    rw [Rat.mkRat_eq_div]; norm_num
  exact ⟨by decide, by decide, by decide, by rw [← h]; decide, by decide, by decide⟩

/-- C3 (counterexample): on `"$100 for 3 nights"` the code returns the
exact quotient `100/3`, not the two-decimal rounding `33.33` the claim
states. -/
theorem parsePrice_no_rounding_cex :
    parsePrice "$100 for 3 nights" = 100 / 3 ∧ parsePrice "$100 for 3 nights" ≠ 33.33 := by
  have h : parsePrice "$100 for 3 nights" = mkRat 100 3 := by decide
  rw [h, Rat.mkRat_eq_div]
  constructor
  · norm_num
  · norm_num

/-- C3 (amended): for every rawPrice in which exactly one positive dollar
amount `X` parses and whose leftmost night count is `N ≥ 1`, `parsePrice`
returns `X / N` exactly — with no rounding to two decimal places (for
`N = 1` the night branch is skipped and the result is `X = X / 1`). -/
theorem parsePrice_single_amount_nights (raw : String) (X : ℚ) (N : ℕ)
    (hA : positiveAmounts raw.data = [X])
    (hN : extractNights raw.data = some N) (hN1 : 1 ≤ N) :
    parsePrice raw = X / (N : ℚ) := by
  have hne : ¬(raw = "" ∨ raw = "N/A") := by
    rintro (rfl | rfl)
    · rw [show positiveAmounts ("" : String).data = [] from by decide] at hA
      exact List.noConfusion hA
    · rw [show positiveAmounts ("N/A" : String).data = [] from by decide] at hA
      exact List.noConfusion hA
  have hfind : findAllPrices raw.data ≠ [] := by
    intro h
    rw [show positiveAmounts raw.data =
        ((findAllPrices raw.data).filterMap
          (fun cap => goParseFloat (cap.filter (· ≠ ',')))).filter (fun v => 0 < v) from rfl,
      h] at hA
    exact List.noConfusion hA
  rw [parsePrice, if_neg hne, if_neg hfind, hA, hN]
  rw [if_neg (List.cons_ne_nil X [])]
  have hfold : lowestAmount [X] = X := by
    simp [lowestAmount, List.foldl]
  rw [hfold]
  show (if 1 < N then qdivNat X N else X) = X / (N : ℚ)
  rcases Nat.lt_or_ge 1 N with h1 | h1
  · rw [if_pos h1, qdivNat_eq]
  · have : N = 1 := Nat.le_antisymm h1 hN1
    subst this
    rw [if_neg (by norm_num)]
    norm_num

/-- Witness for `parsePrice_single_amount_nights` at `"$450 for 3 nights"`. -/
theorem parsePrice_single_amount_nights_witness :
    positiveAmounts ("$450 for 3 nights" : String).data = [450] ∧
    extractNights ("$450 for 3 nights" : String).data = some 3 ∧
    parsePrice "$450 for 3 nights" = 450 / (3 : ℚ) :=
  ⟨by decide, by decide,
    parsePrice_single_amount_nights "$450 for 3 nights" 450 3 (by decide) (by decide)
      (by decide)⟩

/-- C4 (counterexample): `"6.3"` contains no number in `[0,5]`, yet
`parseRating` returns `3`, not `0`: the regex finds a word boundary after
the dot and matches the fraction digit `"3"`, silently truncating an
out-of-range rating into range. -/
theorem parseRating_out_of_range_cex :
    parseRating "6.3" = 3 ∧ parseRating "6.3" ≠ 0 := by
  refine ⟨by decide, by decide⟩

/-- C4 (amended): `parseRating` returns the value of the leftmost
`\b[0-5](\.\d{1,2})?\b` token when that value lies in `[0,5]`, else `0`;
the matched token may be an embedded fragment of an out-of-range number,
so `"6.0"` yields `0` but `"6.3"` yields `3`.  The result always lies in
`[0, 5]`. -/
theorem parseRating_cases_and_range :
    parseRating "4.85" = 4.85 ∧
    parseRating "New" = 0 ∧
    parseRating "" = 0 ∧
    parseRating "6.0" = 0 ∧
    parseRating "3.5 (120 reviews)" = 3.5 ∧
    parseRating "6.3" = 3 ∧
    ∀ raw : String, 0 ≤ parseRating raw ∧ parseRating raw ≤ 5 := by
  have h485 : (mkRat 485 100 : ℚ) = 4.85 := by rw [Rat.mkRat_eq_div]; norm_num
  have h35 : (mkRat 35 10 : ℚ) = 3.5 := by rw [Rat.mkRat_eq_div]; norm_num
  refine ⟨by rw [← h485]; decide, by decide, by decide, by decide, by rw [← h35]; decide,
    by decide, ?_⟩
  intro raw
  have hr : ∀ tok : Str, 0 ≤ ratingOfTok tok ∧ ratingOfTok tok ≤ 5 := by
    intro tok
    unfold ratingOfTok
    split
    · exact ⟨le_refl 0, by norm_num⟩
    · rename_i val heq
      by_cases h : val < 0 ∨ 5 < val
      · rw [if_pos h]
        exact ⟨le_refl 0, by norm_num⟩
      · rw [if_neg h]
        push_neg at h
        exact ⟨h.1, h.2⟩
  rw [parseRating]
  cases hf : findRatingTok raw.data with
  | none => exact ⟨le_refl 0, by norm_num⟩
  | some tok => exact hr tok

end AirbnbScraper

namespace AirbnbScraper

/-! ### Text normalisation and Clean (services/cleaner.go lines 31–65, 136–149) -/

/-- Go `strings.TrimSpace` (ASCII whitespace, see header). -/
def goTrimSpace (s : Str) : Str :=
  ((s.dropWhile goIsSpace).reverse.dropWhile goIsSpace).reverse

/-- `strings.ToLower` on one ASCII character. -/
def goToLower (c : Char) : Char :=
  if 'A' ≤ c && c ≤ 'Z' then Char.ofNat (c.toNat + 32) else c

/-- `strings.FieldsFunc(s, unicode.IsSpace)`: the maximal runs of
non-whitespace characters. -/
def goFields : Str → List Str
  | [] => []
  | c :: cs =>
    if goIsSpace c then goFields cs
    else ((c :: cs).takeWhile fun x => !goIsSpace x) ::
      goFields (cs.dropWhile fun x => !goIsSpace x)
termination_by s => s.length
decreasing_by
  · simp only [List.length_cons]
    exact Nat.lt_succ_self _
  · simp only [List.length_cons]
    exact Nat.lt_succ_of_le ((List.dropWhile_sublist _).length_le)

/-- `strings.Join(fields, " ")`. -/
def joinSpace : List Str → Str
  | [] => []
  | [w] => w
  | w :: ws => w ++ ' ' :: joinSpace ws

/-- `normaliseText` (services/cleaner.go lines 136–145): trim, then map
`""` and `"N/A"` to `""`, then collapse whitespace runs to single spaces. -/
def normaliseText (s : String) : String :=
  let t := goTrimSpace s.data
  if t = [] ∨ t = "N/A".data then ""
  else ⟨joinSpace (goFields t)⟩

/-- `normalisePlatform` (services/cleaner.go lines 147–149). -/
def normalisePlatform (s : String) : String :=
  ⟨(goTrimSpace s.data).map goToLower⟩

/-- `models.RawListing`.  `ScrapedAt` is omitted: it is never read by the
cleaner or the insight services. -/
structure RawListing where
  title : String
  rawPrice : String
  location : String
  rating : String
  url : String
  description : String
  platform : String
deriving DecidableEq, Repr

/-- `models.Listing`.  `ID` (set only by the database) and `CreatedAt`
(`time.Now()`, read by no modelled code) are omitted. -/
structure Listing where
  platform : String
  title : String
  price : ℚ
  location : String
  rating : ℚ
  url : String
  description : String
deriving DecidableEq, Repr

/-- The `&models.Listing{...}` literal built in `Clean` for an accepted
raw listing, given its already-trimmed URL. -/
def mkListing (url : String) (r : RawListing) : Listing where
  platform := normalisePlatform r.platform
  title := normaliseText r.title
  price := parsePrice r.rawPrice
  location := normaliseText r.location
  rating := parseRating r.rating
  url := url
  description := normaliseText r.description

@[simp] theorem mkListing_url (u : String) (r : RawListing) : (mkListing u r).url = u := rfl

/-- The trimmed URL `Clean` computes for a raw listing. -/
def trimUrl (r : RawListing) : String := ⟨goTrimSpace r.url.data⟩

/-- The loop of `(*Cleaner).Clean` (services/cleaner.go lines 35–60); the
Go `seen` map is modelled as the list of keys inserted so far (only
membership is ever queried). -/
def CleanLoop (seen : List String) : List RawListing → List Listing
  | [] => []
  | r :: rs =>
    if trimUrl r = "" then CleanLoop seen rs
    else if trimUrl r ∈ seen then CleanLoop seen rs
    else mkListing (trimUrl r) r :: CleanLoop (trimUrl r :: seen) rs

/-- `(*Cleaner).Clean` (services/cleaner.go lines 31–65). -/
def Clean (raw : List RawListing) : List Listing := CleanLoop [] raw

theorem cleanLoop_url_ne (rs : List RawListing) :
    ∀ seen, ∀ l ∈ CleanLoop seen rs, l.url ≠ "" := by
  induction rs with
  | nil => intro seen l hl; exact absurd hl (List.not_mem_nil l)
  | cons r rs ih =>
    intro seen l hl
    rw [CleanLoop] at hl
    by_cases h1 : trimUrl r = ""
    · rw [if_pos h1] at hl; exact ih seen l hl
    · rw [if_neg h1] at hl
      by_cases h2 : trimUrl r ∈ seen
      · rw [if_pos h2] at hl; exact ih seen l hl
      · rw [if_neg h2] at hl
        rcases List.mem_cons.mp hl with rfl | hl
        · simpa using h1
        · exact ih _ l hl

theorem cleanLoop_not_mem_seen (rs : List RawListing) :
    ∀ seen, ∀ l ∈ CleanLoop seen rs, l.url ∉ seen := by
  induction rs with
  | nil => intro seen l hl; exact absurd hl (List.not_mem_nil l)
  | cons r rs ih =>
    intro seen l hl
    rw [CleanLoop] at hl
    by_cases h1 : trimUrl r = ""
    · rw [if_pos h1] at hl; exact ih seen l hl
    · rw [if_neg h1] at hl
      by_cases h2 : trimUrl r ∈ seen
      · rw [if_pos h2] at hl; exact ih seen l hl
      · rw [if_neg h2] at hl
        rcases List.mem_cons.mp hl with rfl | hl
        · simpa using h2
        · intro hmem
          exact ih _ l hl (List.mem_cons_of_mem _ hmem)

theorem cleanLoop_nodup (rs : List RawListing) :
    ∀ seen, ((CleanLoop seen rs).map (fun l => l.url)).Nodup := by
  induction rs with
  | nil => intro seen; simp [CleanLoop]
  | cons r rs ih =>
    intro seen
    rw [CleanLoop]
    by_cases h1 : trimUrl r = ""
    · rw [if_pos h1]; exact ih seen
    · rw [if_neg h1]
      by_cases h2 : trimUrl r ∈ seen
      · rw [if_pos h2]; exact ih seen
      · rw [if_neg h2]
        rw [List.map_cons, List.nodup_cons]
        refine ⟨?_, ih _⟩
        intro hmem
        rcases List.mem_map.mp hmem with ⟨l, hl, hurl⟩
        have := cleanLoop_not_mem_seen rs _ l hl
        rw [mkListing_url] at hurl
        exact this (hurl ▸ List.mem_cons_self _ _)

end AirbnbScraper

namespace AirbnbScraper

/-- First occurrences, in order, of the strings of a list, skipping those
already in `seen` — the semantic content of `List.eraseDups`' accumulator
loop (lemma `eraseDupsLoop_eq`). -/
def newFirsts (seen : List String) : List String → List String
  | [] => []
  | a :: as => if a ∈ seen then newFirsts seen as else a :: newFirsts (a :: seen) as

theorem eraseDupsLoop_eq (as : List String) :
    ∀ bs, List.eraseDups.loop as bs = bs.reverse ++ newFirsts bs as := by
  induction as with
  | nil => intro bs; simp [List.eraseDups.loop, newFirsts]
  | cons a as ih =>
    intro bs
    rw [List.eraseDups.loop, newFirsts]
    by_cases h : a ∈ bs
    · rw [if_pos h]
      have : bs.elem a = true := List.elem_iff.mpr h
      rw [this]
      exact ih bs
    · rw [if_neg h]
      have : bs.elem a = false := by
        rw [← Bool.not_eq_true, List.elem_iff]
        exact h
      rw [this]
      rw [ih (a :: bs)]
      simp

theorem eraseDups_eq_newFirsts (as : List String) :
    as.eraseDups = newFirsts [] as := by
  rw [List.eraseDups, eraseDupsLoop_eq]
  simp

theorem cleanLoop_map_url (rs : List RawListing) :
    ∀ seen, (CleanLoop seen rs).map (fun l => l.url) =
      newFirsts seen (((rs.map trimUrl).filter (· ≠ ""))) := by
  induction rs with
  | nil => intro seen; simp [CleanLoop, newFirsts]
  | cons r rs ih =>
    intro seen
    rw [CleanLoop, List.map_cons]
    by_cases h1 : trimUrl r = ""
    · rw [if_pos h1]
      rw [show (trimUrl r :: rs.map trimUrl).filter (· ≠ "") =
          (rs.map trimUrl).filter (· ≠ "") from by
        rw [List.filter_cons]
        simp [h1]]
      exact ih seen
    · rw [if_neg h1]
      rw [show (trimUrl r :: rs.map trimUrl).filter (· ≠ "") =
          trimUrl r :: (rs.map trimUrl).filter (· ≠ "") from by
        rw [List.filter_cons]
        simp [h1]]
      rw [newFirsts]
      by_cases h2 : trimUrl r ∈ seen
      · rw [if_pos h2, if_pos h2]
        exact ih seen
      · rw [if_neg h2, if_neg h2, List.map_cons, mkListing_url]
        rw [ih (trimUrl r :: seen)]

theorem cleanLoop_first (rs : List RawListing) :
    ∀ seen, ∀ l ∈ CleanLoop seen rs,
      ∃ pre r post, rs = pre ++ r :: post ∧ l = mkListing (trimUrl r) r ∧
        trimUrl r = l.url ∧ ∀ rp ∈ pre, trimUrl rp ≠ l.url := by
  induction rs with
  | nil => intro seen l hl; exact absurd hl (List.not_mem_nil l)
  | cons r rs ih =>
    intro seen l hl
    rw [CleanLoop] at hl
    by_cases h1 : trimUrl r = ""
    · rw [if_pos h1] at hl
      rcases ih seen l hl with ⟨pre, r0, post, hdec, hmk, hurl, hfirst⟩
      refine ⟨r :: pre, r0, post, by rw [hdec]; rfl, hmk, hurl, ?_⟩
      intro rp hrp
      rcases List.mem_cons.mp hrp with rfl | hrp
      · rw [h1]
        exact (cleanLoop_url_ne rs seen l hl).symm
      · exact hfirst rp hrp
    · rw [if_neg h1] at hl
      by_cases h2 : trimUrl r ∈ seen
      · rw [if_pos h2] at hl
        rcases ih seen l hl with ⟨pre, r0, post, hdec, hmk, hurl, hfirst⟩
        refine ⟨r :: pre, r0, post, by rw [hdec]; rfl, hmk, hurl, ?_⟩
        intro rp hrp
        rcases List.mem_cons.mp hrp with rfl | hrp
        · intro hbad
          exact cleanLoop_not_mem_seen rs seen l hl (hbad ▸ h2)
        · exact hfirst rp hrp
      · rw [if_neg h2] at hl
        rcases List.mem_cons.mp hl with rfl | hl
        · exact ⟨[], r, rs, rfl, rfl, rfl, by intro rp hrp; exact absurd hrp (List.not_mem_nil rp)⟩
        · rcases ih (trimUrl r :: seen) l hl with ⟨pre, r0, post, hdec, hmk, hurl, hfirst⟩
          refine ⟨r :: pre, r0, post, by rw [hdec]; rfl, hmk, hurl, ?_⟩
          intro rp hrp
          rcases List.mem_cons.mp hrp with rfl | hrp
          · intro hbad
            exact cleanLoop_not_mem_seen rs _ l hl (hbad ▸ List.mem_cons_self _ _)
          · exact hfirst rp hrp

/-- C6: `Clean` (i) outputs only listings with a non-empty trimmed URL,
(ii) with pairwise-distinct URLs, (iii) whose URL sequence is exactly the
first-occurrence deduplication (`List.eraseDups`) of the non-empty trimmed
input URLs in input order, and (iv) every output listing is built from the
first input record carrying its URL; dropped records raise no error (the
function is total). -/
theorem clean_unique_urls (raw : List RawListing) :
    (∀ l ∈ Clean raw, l.url ≠ "") ∧
    ((Clean raw).map (fun l => l.url)).Nodup ∧
    (Clean raw).map (fun l => l.url) = ((raw.map trimUrl).filter (· ≠ "")).eraseDups ∧
    (∀ l ∈ Clean raw,
      ∃ pre r post, raw = pre ++ r :: post ∧ l = mkListing (trimUrl r) r ∧
        trimUrl r = l.url ∧ ∀ rp ∈ pre, trimUrl rp ≠ l.url) := by
  refine ⟨fun l hl => cleanLoop_url_ne raw [] l hl, cleanLoop_nodup raw [], ?_,
    fun l hl => cleanLoop_first raw [] l hl⟩
  rw [Clean, cleanLoop_map_url raw [], eraseDups_eq_newFirsts]

end AirbnbScraper

namespace AirbnbScraper

/-! ### sort.Slice

Both `Generate` implementations call `sort.Slice`, which for the Go
toolchain the repository targets (README: Go 1.23+; unchanged since 1.19)
is `pdqsort_func` from sort/zsortfunc.go.  The Go slice is modelled as a
`List` with indexed reads (`lget`, Go `data.Less` operands) and indexed
swaps (`lswap`, Go `data.Swap`); every function below is a transcription
of the corresponding `*_func` of sort/zsortfunc.go.  Loops whose indices
move towards each other are given fuel well above their iteration count
(they are used for evaluation; the proved claims only traverse the
`length ≤ 12` insertion-sort path, which is fuel-free). -/

/-- Indexed read of a Go slice. -/
def lget [Inhabited α] (l : List α) (i : ℕ) : α := l.getD i default

/-- `data.Swap(i, j)`. -/
def lswap [Inhabited α] (l : List α) (i j : ℕ) : List α :=
  if i < l.length ∧ j < l.length then (l.set i (lget l j)).set j (lget l i) else l

/-- Inner loop of `insertionSort_func`: bubble the element at index `j`
left while it is `less` than its predecessor (and `j > a`). -/
def bubbleUpL [Inhabited α] (lt : α → α → Bool) (a : ℕ) : List α → ℕ → List α
  | l, 0 => l
  | l, j + 1 =>
    if a ≤ j && lt (lget l (j + 1)) (lget l j) then
      bubbleUpL lt a (lswap l (j + 1) j) j
    else l

/-- Outer loop of `insertionSort_func` (`for i := a + 1; i < b; i++`),
fuelled structurally so the kernel can evaluate it (the fuel passed by
`insertionSortL` exceeds the iteration count `b - a`). -/
def insLoopL [Inhabited α] (lt : α → α → Bool) (a b : ℕ) : ℕ → List α → ℕ → List α
  | 0, l, _ => l
  | f + 1, l, i => if i < b then insLoopL lt a b f (bubbleUpL lt a l i) (i + 1) else l

/-- `insertionSort_func(data, a, b)`. -/
def insertionSortL [Inhabited α] (lt : α → α → Bool) (l : List α) (a b : ℕ) : List α :=
  insLoopL lt a b (b + 1) l (a + 1)

/-- Loop of `siftDown_func`. -/
def siftDownLoop [Inhabited α] (lt : α → α → Bool) (hi first : ℕ) :
    ℕ → List α → ℕ → List α
  | 0, l, _ => l
  | fuel + 1, l, root =>
    let child := 2 * root + 1
    if child ≥ hi then l
    else
      let child :=
        if child + 1 < hi && lt (lget l (first + child)) (lget l (first + child + 1)) then
          child + 1
        else child
      if !lt (lget l (first + root)) (lget l (first + child)) then l
      else siftDownLoop lt hi first fuel (lswap l (first + root) (first + child)) child

/-- `siftDown_func(data, lo, hi, first)`. -/
def siftDownL [Inhabited α] (lt : α → α → Bool) (l : List α) (lo hi first : ℕ) : List α :=
  siftDownLoop lt hi first (hi + 2) l lo

/-- First loop of `heapSort_func` (build heap), `i` descending. -/
def heapBuild [Inhabited α] (lt : α → α → Bool) (hi first : ℕ) : ℕ → List α → List α
  | 0, l => siftDownL lt l 0 hi first
  | i + 1, l => heapBuild lt hi first i (siftDownL lt l (i + 1) hi first)

/-- Second loop of `heapSort_func` (pop maxima), `i` descending. -/
def heapPop [Inhabited α] (lt : α → α → Bool) (first : ℕ) : ℕ → List α → List α
  | 0, l => l
  | i + 1, l =>
    let l := lswap l first (first + (i + 1))
    heapPop lt first i (siftDownL lt l 0 (i + 1) first)

/-- `heapSort_func(data, a, b)`. -/
def heapSortL [Inhabited α] (lt : α → α → Bool) (l : List α) (a b : ℕ) : List α :=
  let first := a
  let hi := b - a
  if hi = 0 then l
  else heapPop lt first (hi - 1) (heapBuild lt hi first ((hi - 1) / 2) l)

/-- `order2_func(data, a, b, &swaps)`: index pair ordered by `Less`, with
the swap counter. -/
def order2L [Inhabited α] (lt : α → α → Bool) (l : List α) (i j swaps : ℕ) : ℕ × ℕ × ℕ :=
  if lt (lget l j) (lget l i) then (j, i, swaps + 1) else (i, j, swaps)

/-- `median_func(data, a, b, c, &swaps)`. -/
def medianL [Inhabited α] (lt : α → α → Bool) (l : List α) (a b c swaps : ℕ) : ℕ × ℕ :=
  let (a1, b1, s1) := order2L lt l a b swaps
  let (b2, _, s2) := order2L lt l b1 c s1
  let (_, b3, s3) := order2L lt l a1 b2 s2
  (b3, s3)

/-- `medianAdjacent_func(data, i, &swaps)`. -/
def medianAdjacentL [Inhabited α] (lt : α → α → Bool) (l : List α) (i swaps : ℕ) : ℕ × ℕ :=
  medianL lt l (i - 1) i (i + 1) swaps

/-- The `sortedHint` values. -/
inductive Hint where
  | unknown
  | increasing
  | decreasing
deriving DecidableEq, Repr

/-- `choosePivot_func(data, a, b)`. -/
def choosePivotL [Inhabited α] (lt : α → α → Bool) (l : List α) (a b : ℕ) : ℕ × Hint :=
  let len := b - a
  let i := a + len / 4 * 1
  let j := a + len / 4 * 2
  let k := a + len / 4 * 3
  if 8 ≤ len then
    let (i, j, k, swaps) :=
      if 50 ≤ len then
        let (i1, s1) := medianAdjacentL lt l i 0
        let (j1, s2) := medianAdjacentL lt l j s1
        let (k1, s3) := medianAdjacentL lt l k s2
        (i1, j1, k1, s3)
      else (i, j, k, 0)
    let (j2, swaps2) := medianL lt l i j k swaps
    if swaps2 = 0 then (j2, Hint.increasing)
    else if swaps2 = 12 then (j2, Hint.decreasing)
    else (j2, Hint.unknown)
  else (j, Hint.increasing)

/-- `reverseRange_func(data, a, b)`. -/
def reverseRangeLoop [Inhabited α] : ℕ → List α → ℕ → ℕ → List α
  | 0, l, _, _ => l
  | fuel + 1, l, i, j => if i < j then reverseRangeLoop fuel (lswap l i j) (i + 1) (j - 1) else l

def reverseRangeL [Inhabited α] (l : List α) (a b : ℕ) : List α :=
  reverseRangeLoop (b + 2) l a (b - 1)

end AirbnbScraper

namespace AirbnbScraper

/-- First scan of `partition_func`: `for i <= j && data.Less(i, a) { i++ }`. -/
def scanLess [Inhabited α] (lt : α → α → Bool) (l : List α) (pa j : ℕ) : ℕ → ℕ → ℕ
  | 0, i => i
  | f + 1, i => if i ≤ j && lt (lget l i) (lget l pa) then scanLess lt l pa j f (i + 1) else i

/-- Second scan of `partition_func`: `for i <= j && !data.Less(j, a) { j-- }`. -/
def scanGE [Inhabited α] (lt : α → α → Bool) (l : List α) (pa i : ℕ) : ℕ → ℕ → ℕ
  | 0, j => j
  | f + 1, j => if i ≤ j && !lt (lget l j) (lget l pa) then scanGE lt l pa i f (j - 1) else j

/-- Main loop of `partition_func`; returns the list and the final `j`. -/
def partMainLoop [Inhabited α] (lt : α → α → Bool) (pa fb : ℕ) :
    ℕ → List α → ℕ → ℕ → List α × ℕ
  | 0, l, _, j => (l, j)
  | f + 1, l, i, j =>
    let i1 := scanLess lt l pa j fb i
    let j1 := scanGE lt l pa i1 fb j
    if j1 < i1 then (l, j1)
    else partMainLoop lt pa fb f (lswap l i1 j1) (i1 + 1) (j1 - 1)

/-- `partition_func(data, a, b, pivot)`; returns `(data, newpivot,
alreadyPartitioned)`. -/
def partitionL [Inhabited α] (lt : α → α → Bool) (l0 : List α) (a b pivot : ℕ) :
    List α × ℕ × Bool :=
  let fb := b + 2
  let l := lswap l0 a pivot
  let i1 := scanLess lt l a (b - 1) fb (a + 1)
  let j1 := scanGE lt l a i1 fb (b - 1)
  if j1 < i1 then (lswap l j1 a, j1, true)
  else
    let (l3, j3) := partMainLoop lt a fb fb (lswap l i1 j1) (i1 + 1) (j1 - 1)
    (lswap l3 j3 a, j3, false)

/-- First scan of `partitionEqual_func`: `for i <= j && !data.Less(a, i) { i++ }`. -/
def scanNotGT [Inhabited α] (lt : α → α → Bool) (l : List α) (pa j : ℕ) : ℕ → ℕ → ℕ
  | 0, i => i
  | f + 1, i => if i ≤ j && !lt (lget l pa) (lget l i) then scanNotGT lt l pa j f (i + 1) else i

/-- Second scan of `partitionEqual_func`: `for i <= j && data.Less(a, j) { j-- }`. -/
def scanGT [Inhabited α] (lt : α → α → Bool) (l : List α) (pa i : ℕ) : ℕ → ℕ → ℕ
  | 0, j => j
  | f + 1, j => if i ≤ j && lt (lget l pa) (lget l j) then scanGT lt l pa i f (j - 1) else j

/-- Loop of `partitionEqual_func`; returns the list and the final `i`. -/
def partEqLoop [Inhabited α] (lt : α → α → Bool) (pa fb : ℕ) :
    ℕ → List α → ℕ → ℕ → List α × ℕ
  | 0, l, i, _ => (l, i)
  | f + 1, l, i, j =>
    let i1 := scanNotGT lt l pa j fb i
    let j1 := scanGT lt l pa i1 fb j
    if j1 < i1 then (l, i1)
    else partEqLoop lt pa fb f (lswap l i1 j1) (i1 + 1) (j1 - 1)

/-- `partitionEqual_func(data, a, b, pivot)`; returns `(data, newpivot)`. -/
def partitionEqualL [Inhabited α] (lt : α → α → Bool) (l0 : List α) (a b pivot : ℕ) :
    List α × ℕ :=
  let fb := b + 2
  let l := lswap l0 a pivot
  partEqLoop lt a fb fb l (a + 1) (b - 1)

/-- Advance loop of `partialInsertionSort_func`:
`for i < b && !data.Less(i, i-1) { i++ }`. -/
def piAdvance [Inhabited α] (lt : α → α → Bool) (l : List α) (b : ℕ) : ℕ → ℕ → ℕ
  | 0, i => i
  | f + 1, i => if i < b && !lt (lget l i) (lget l (i - 1)) then piAdvance lt l b f (i + 1) else i

/-- Left shift loop of `partialInsertionSort_func`
(`for j := i - 1; j >= 1; j--`). -/
def piShiftLeft [Inhabited α] (lt : α → α → Bool) : List α → ℕ → List α
  | l, 0 => l
  | l, j + 1 =>
    if lt (lget l (j + 1)) (lget l j) then piShiftLeft lt (lswap l (j + 1) j) j else l

/-- Right shift loop of `partialInsertionSort_func`
(`for j := i + 1; j < b; j++`). -/
def piShiftRight [Inhabited α] (lt : α → α → Bool) (b : ℕ) : ℕ → List α → ℕ → List α
  | 0, l, _ => l
  | f + 1, l, j =>
    if j < b && lt (lget l j) (lget l (j - 1)) then piShiftRight lt b f (lswap l j (j - 1)) (j + 1)
    else l

/-- The `maxSteps` loop of `partialInsertionSort_func`. -/
def piSteps [Inhabited α] (lt : α → α → Bool) (a b : ℕ) : ℕ → List α → ℕ → List α × Bool
  | 0, l, _ => (l, false)
  | s + 1, l, i =>
    let i1 := piAdvance lt l b (b + 2) i
    if i1 = b then (l, true)
    else if b - a < 50 then (l, false)
    else
      let l1 := lswap l i1 (i1 - 1)
      let l2 := if 2 ≤ i1 - a then piShiftLeft lt l1 (i1 - 1) else l1
      let l3 := if 2 ≤ b - i1 then piShiftRight lt b (b + 2) l2 (i1 + 1) else l2
      piSteps lt a b s l3 i1

/-- `partialInsertionSort_func(data, a, b)`. -/
def partialInsertionSortL [Inhabited α] (lt : α → α → Bool) (l : List α) (a b : ℕ) :
    List α × Bool :=
  piSteps lt a b 5 l (a + 1)

/-- One step of the `xorshift` PRNG used by `breakPatterns_func`
(64-bit: `r ^= r << 13; r ^= r >> 17; r ^= r << 5`). -/
def xorshiftNext (r : ℕ) : ℕ :=
  let r1 := (r ^^^ (r <<< 13)) % 2 ^ 64
  let r2 := (r1 ^^^ (r1 >>> 17)) % 2 ^ 64
  (r2 ^^^ (r2 <<< 5)) % 2 ^ 64

/-- `bits.Len` (number of bits), in kernel-reducible form (the fuel `n`
dominates `log₂ n + 1`). -/
def bitsLenAux : ℕ → ℕ → ℕ
  | 0, _ => 0
  | f + 1, n => if n = 0 then 0 else bitsLenAux f (n / 2) + 1

/-- `bits.Len(uint(n))`. -/
def bitsLen (n : ℕ) : ℕ := bitsLenAux n n

/-- `nextPowerOfTwo(length) = 1 << bits.Len(uint(length))`. -/
def nextPowerOfTwo (length : ℕ) : ℕ := 1 <<< bitsLen length

/-- `breakPatterns_func(data, a, b)`. -/
def breakPatternsL [Inhabited α] (l : List α) (a b : ℕ) : List α :=
  let length := b - a
  if 8 ≤ length then
    let modulus := nextPowerOfTwo length
    let idx := a + length / 4 * 2 - 1
    let step := fun (st : List α × ℕ) (i : ℕ) =>
      let r := xorshiftNext st.2
      let other := r &&& (modulus - 1)
      let other := if length ≤ other then other - length else other
      (lswap st.1 (idx - 1 + i) (a + other), r)
    (((step (l, length) 0).1, (step (l, length) 0).2) |> fun st1 =>
      (step st1 1) |> fun st2 => (step st2 2).1)
  else l

/-- The body of one `pdqsort_func` iteration past the small-slice and
`limit` checks; `rec` is the continuation for the loop's next iteration
and the recursive calls. -/
def pdqsortStep [Inhabited α] (lt : α → α → Bool)
    (rec : List α → ℕ → ℕ → ℕ → Bool → Bool → List α)
    (l0 : List α) (a b limit0 : ℕ) (wasBalanced wasPartitioned : Bool) : List α :=
  let length := b - a
  let (l, limit) :=
    if !wasBalanced then (breakPatternsL l0 a b, limit0 - 1) else (l0, limit0)
  let (pivot, hint) := choosePivotL lt l a b
  let (l, pivot, hint) :=
    if hint = Hint.decreasing then
      (reverseRangeL l a b, (b - 1) - (pivot - a), Hint.increasing)
    else (l, pivot, hint)
  let (l, stop) :=
    if wasBalanced && wasPartitioned && hint = Hint.increasing then
      partialInsertionSortL lt l a b
    else (l, false)
  if stop then l
  else if 0 < a && !lt (lget l (a - 1)) (lget l pivot) then
    let (l, mid) := partitionEqualL lt l a b pivot
    rec l mid b limit wasBalanced wasPartitioned
  else
    let (l, mid, alreadyPartitioned) := partitionL lt l a b pivot
    let leftLen := mid - a
    let rightLen := b - mid
    let balanceThreshold := length / 8
    let wasBalanced2 := decide (balanceThreshold ≤ min leftLen rightLen)
    if leftLen < rightLen then
      let l := rec l a mid limit true true
      rec l (mid + 1) b limit wasBalanced2 alreadyPartitioned
    else
      let l := rec l (mid + 1) b limit true true
      rec l a mid limit wasBalanced2 alreadyPartitioned

/-- `pdqsort_func(data, a, b, limit)`: the iterative loop and the
recursive calls, fuelled (each loop iteration or recursive call consumes
one unit; the fuel passed by `goSortSlice` exceeds any possible count). -/
def pdqsortLoop [Inhabited α] (lt : α → α → Bool) :
    ℕ → List α → ℕ → ℕ → ℕ → Bool → Bool → List α
  | 0, l, _, _, _, _, _ => l
  | f + 1, l, a, b, limit, wasBalanced, wasPartitioned =>
    if b - a ≤ 12 then insertionSortL lt l a b
    else if limit = 0 then heapSortL lt l a b
    else pdqsortStep lt (pdqsortLoop lt f) l a b limit wasBalanced wasPartitioned

/-- `sort.Slice(x, less)`: `limit = bits.Len(uint(length))`, then
`pdqsort_func(data, 0, length, limit)`. -/
def goSortSlice [Inhabited α] (lt : α → α → Bool) (l : List α) : List α :=
  let n := l.length
  let limit := bitsLen n
  pdqsortLoop lt (4 * n + 64) l 0 n limit true true

end AirbnbScraper

namespace AirbnbScraper

/-! ### InsightReport and the two Generate implementations -/

instance : Inhabited Listing := ⟨⟨"", "", 0, "", 0, "", ""⟩⟩

/-- `models.InsightReport`.  The Go `map[string]int` is modelled as its
count function (`0` = key absent). -/
structure InsightReport where
  totalListings : ℕ
  airbnbListings : ℕ
  averagePrice : ℚ
  minPrice : ℚ
  maxPrice : ℚ
  mostExpensive : Option Listing
  topRated : List Listing
  listingsByLocation : String → ℕ

/-- The zero-valued `&models.InsightReport{ListingsByLocation: make(...)}`. -/
def emptyReport : InsightReport where
  totalListings := 0
  airbnbListings := 0
  averagePrice := 0
  minPrice := 0
  maxPrice := 0
  mostExpensive := none
  topRated := []
  listingsByLocation := fun _ => 0

/-- `m[key]++` on the map model. -/
def bumpLoc (m : String → ℕ) (k : String) : String → ℕ :=
  fun x => if x = k then m x + 1 else m x

/-- The comparator closure passed to `sort.Slice` by both Generate
implementations: `ratedListings[i].Rating > ratedListings[j].Rating`. -/
def ratingLT (a b : Listing) : Bool := decide (b.rating < a.rating)

/-- Go `int(f)` on a float: truncation toward zero. -/
def goTruncQ (q : ℚ) : ℤ := if q < 0 then ⌈q⌉ else ⌊q⌋

/-- `round2` of services/insights.go: `float64(int(f*100+0.5)) / 100`. -/
def round2v1 (q : ℚ) : ℚ := (goTruncQ (q * 100 + 1 / 2) : ℚ) / 100

/-- `math.Round`: round half away from zero. -/
def mathRound (q : ℚ) : ℤ := if q < 0 then ⌈q - 1 / 2⌉ else ⌊q + 1 / 2⌋

/-- `round2` of the part_010 variant: `math.Round(f*100) / 100`. -/
def round2v2 (q : ℚ) : ℚ := (mathRound (q * 100) : ℚ) / 100

/-- Accumulator of the price-statistics loop of services/insights.go
(lines 50–63): running total, `report.MinPrice`, `report.MaxPrice`,
`report.MostExpensive`. -/
structure PriceStats where
  total : ℚ
  minP : ℚ
  maxP : ℚ
  mostExp : Option Listing
deriving DecidableEq

/-- One iteration of that loop. -/
def priceStep (st : PriceStats) (l : Listing) : PriceStats where
  total := st.total + l.price
  minP := if l.price < st.minP then l.price else st.minP
  maxP := if st.maxP < l.price then l.price else st.maxP
  mostExp := if st.maxP < l.price then some l else st.mostExp

/-- The whole loop: initial min/max are `priceListings[0].Price`,
`MostExpensive` starts as Go `nil`. -/
def priceFold (priced : List Listing) (p0 : Listing) : PriceStats :=
  priced.foldl priceStep { total := 0, minP := p0.price, maxP := p0.price, mostExp := none }

/-- `priceListings` of both implementations. -/
def pricedOf (listings : List Listing) : List Listing := listings.filter fun l => 0 < l.price

/-- `ratedListings` of both implementations. -/
def ratedOf (listings : List Listing) : List Listing := listings.filter fun l => 0 < l.rating

/-- The final `PriceStats` of `Generate`'s price loop; the zero state when
there is no listing with positive price (the loop body never runs). -/
def priceStatsOf (listings : List Listing) : PriceStats :=
  match pricedOf listings with
  | [] => { total := 0, minP := 0, maxP := 0, mostExp := none }
  | p0 :: rest => priceFold (p0 :: rest) p0

/-- `(*InsightService).Generate` of services/insights.go (lines 20–80).
The Go code fills the report by mutation (price fields only inside
`if len(priceListings) > 0`); here each field carries its final value. -/
def generateV1 (listings : List Listing) : InsightReport :=
  if listings = [] then emptyReport
  else
    { totalListings := listings.length
      airbnbListings := (listings.filter fun l => l.platform = "airbnb").length
      averagePrice :=
        if pricedOf listings = [] then 0
        else round2v1 ((priceStatsOf listings).total / ((pricedOf listings).length : ℚ))
      minPrice := if pricedOf listings = [] then 0 else round2v1 (priceStatsOf listings).minP
      maxPrice := if pricedOf listings = [] then 0 else round2v1 (priceStatsOf listings).maxP
      mostExpensive := (priceStatsOf listings).mostExp
      topRated :=
        (let sorted := goSortSlice ratingLT (ratedOf listings)
         if 5 < sorted.length then sorted.take 5 else sorted)
      listingsByLocation :=
        listings.foldl
          (fun m l => if l.location ≠ "" then bumpLoc m l.location else m) fun _ => 0 }

/-- `strings.ToLower` (ASCII). -/
def toLowerS (s : String) : String := ⟨s.data.map goToLower⟩

/-- Truncation used by the part_010 `normaliseLocation`: cut at the first
occurrence of `sep` when its index is strictly positive. -/
def truncAtChar (c : Char) (s : Str) : Str :=
  match s.findIdx? (· = c) with
  | some i => if 0 < i then s.take i else s
  | none => s

/-- `normaliseLocation` of the part_010 variant (lines 156–167). -/
def normaliseLocation (s : String) : String :=
  let t := goTrimSpace s.data
  if t = [] ∨ t = "N/A".data then ""
  else ⟨goTrimSpace (truncAtChar ',' (truncAtChar '\n' t))⟩

/-- `countWithPrice` of the part_010 variant. -/
def countWithPrice (listings : List Listing) : ℕ := (pricedOf listings).length

/-- Accumulator of the part_010 loop: running price total, the local
`minPrice`/`maxPrice` (float sentinels `±math.MaxFloat64`), the report's
min/max fields, and `report.MostExpensive`. -/
structure StatsV2 where
  totalPrice : ℚ
  minP : ℚ
  maxP : ℚ
  repMin : ℚ
  repMax : ℚ
  mostExp : Option Listing

/-- One iteration of the part_010 price block (lines 48–59). -/
def v2Step (st : StatsV2) (l : Listing) : StatsV2 :=
  if 0 < l.price then
    { totalPrice := st.totalPrice + l.price
      minP := if l.price < st.minP then l.price else st.minP
      repMin := if l.price < st.minP then l.price else st.repMin
      maxP := if st.maxP < l.price then l.price else st.maxP
      repMax := if st.maxP < l.price then l.price else st.repMax
      mostExp := if st.maxP < l.price then some l else st.mostExp }
  else st

/-- The final accumulator of the part_010 loop. -/
def statsV2Of (listings : List Listing) : StatsV2 :=
  listings.foldl v2Step
    { totalPrice := 0, minP := maxFloat64, maxP := -maxFloat64,
      repMin := 0, repMax := 0, mostExp := none }

/-- `(*InsightService).Generate` of the part_010 variant (lines 24–90). -/
def generateV2 (listings : List Listing) : InsightReport :=
  if listings = [] then emptyReport
  else
    let st := statsV2Of listings
    let pricedCount := countWithPrice listings
    { totalListings := listings.length
      airbnbListings := (listings.filter fun l => toLowerS l.platform = "airbnb").length
      averagePrice :=
        if 0 < pricedCount then round2v2 (st.totalPrice / (pricedCount : ℚ)) else 0
      minPrice := if st.minP = maxFloat64 then 0 else st.repMin
      maxPrice := st.repMax
      mostExpensive := st.mostExp
      topRated :=
        (let sorted := goSortSlice ratingLT (ratedOf listings)
         sorted.take (min 5 sorted.length))
      listingsByLocation :=
        listings.foldl
          (fun m l =>
            let loc := normaliseLocation l.location
            if loc ≠ "" then bumpLoc m loc else m) fun _ => 0 }

end AirbnbScraper

namespace AirbnbScraper

/-! ### Stability of the rating sort

The spec claims `TopRated` uses a *stable* descending sort.  The following
development (i) defines, from the spec's words, the stable descending sort
`specStableSortDesc` (Mathlib's insertion sort under the total preorder
"rating at least"), and (ii) proves that the `length ≤ 12` path of
`sort.Slice` — Go's insertion sort — computes exactly it. -/

/-- The spec's order: `a` precedes `b` when `a.rating ≥ b.rating`. -/
def ratingGE (a b : Listing) : Prop := b.rating ≤ a.rating

instance : DecidableRel ratingGE := fun a b => inferInstanceAs (Decidable (b.rating ≤ a.rating))

instance : IsTotal Listing ratingGE :=
  ⟨fun a b => (le_total b.rating a.rating).imp (fun h => h) fun h => h⟩

instance : IsTrans Listing ratingGE :=
  ⟨fun _ _ _ hab hbc => le_trans hbc hab⟩

/-- Modelled from the spec: "stably sort descending by rating (equal
ratings retain relative input order)" — the stable descending sort,
written with Mathlib's (stable) insertion sort. -/
def specStableSortDesc (l : List Listing) : List Listing := l.insertionSort ratingGE

/-- List form of Go's insertion-sort inner loop: insert `x` into a sorted
prefix, after every element whose rating is at least `x`'s. -/
def insertRated (x : Listing) : List Listing → List Listing
  | [] => [x]
  | y :: ys => if y.rating < x.rating then x :: y :: ys else y :: insertRated x ys

/-- Left-to-right insertion sort on lists (the order Go's loop processes
elements). -/
def insertionFold (l : List Listing) : List Listing :=
  l.foldl (fun acc x => insertRated x acc) []

theorem mem_insertRated {a x : Listing} : ∀ {l : List Listing},
    a ∈ insertRated x l ↔ a = x ∨ a ∈ l := by
  intro l
  induction l with
  | nil => simp [insertRated]
  | cons y ys ih =>
    rw [insertRated]
    by_cases h : y.rating < x.rating
    · rw [if_pos h]
      simp [or_comm, or_left_comm]
    · rw [if_neg h]
      simp [ih, or_comm, or_left_comm]

theorem length_insertRated (x : Listing) : ∀ (l : List Listing),
    (insertRated x l).length = l.length + 1 := by
  intro l
  induction l with
  | nil => rfl
  | cons y ys ih =>
    rw [insertRated]
    by_cases h : y.rating < x.rating
    · rw [if_pos h]; rfl
    · rw [if_neg h]
      simp [ih]

theorem sorted_insertRated (x : Listing) : ∀ (l : List Listing),
    List.Sorted ratingGE l → List.Sorted ratingGE (insertRated x l) := by
  intro l
  induction l with
  | nil => intro _; simp [insertRated, List.Sorted]
  | cons y ys ih =>
    intro hs
    rw [List.sorted_cons] at hs
    rw [insertRated]
    by_cases h : y.rating < x.rating
    · rw [if_pos h]
      rw [List.sorted_cons]
      constructor
      · intro b hb
        rcases List.mem_cons.mp hb with rfl | hb
        · exact le_of_lt h
        · exact le_trans (hs.1 b hb) (le_of_lt h)
      · rw [List.sorted_cons]
        exact hs
    · rw [if_neg h]
      rw [List.sorted_cons]
      constructor
      · intro b hb
        rcases mem_insertRated.mp hb with rfl | hb
        · exact le_of_not_lt h
        · exact hs.1 b hb
      · exact ih hs.2

theorem filter_insertRated (x : Listing) (v : ℚ) : ∀ (l : List Listing),
    List.Sorted ratingGE l →
    (insertRated x l).filter (fun a => a.rating = v) =
      (if x.rating = v then (l.filter fun a => a.rating = v) ++ [x]
       else l.filter fun a => a.rating = v) := by
  intro l
  induction l with
  | nil =>
    intro _
    by_cases hv : x.rating = v
    · simp [insertRated, hv]
    · simp [insertRated, hv]
  | cons y ys ih =>
    intro hs
    rw [List.sorted_cons] at hs
    rw [insertRated]
    by_cases h : y.rating < x.rating
    · rw [if_pos h]
      by_cases hv : x.rating = v
      · have hnil : (y :: ys).filter (fun a => a.rating = v) = [] := by
          rw [List.filter_eq_nil_iff]
          intro a ha
          rcases List.mem_cons.mp ha with rfl | ha
          · simp only [decide_eq_true_eq]
            exact fun hbad => absurd (hbad ▸ hv ▸ h) (lt_irrefl _)
          · simp only [decide_eq_true_eq]
            intro hbad
            have h2 : a.rating ≤ y.rating := hs.1 a ha
            rw [hbad, ← hv] at h2
            exact absurd (lt_of_le_of_lt h2 h) (lt_irrefl _)
        rw [if_pos hv, hnil]
        simp [List.filter_cons, hv, hnil]
      · rw [if_neg hv]
        simp [List.filter_cons, hv]
    · rw [if_neg h]
      rw [List.filter_cons, List.filter_cons, ih hs.2]
      by_cases hy : y.rating = v
      · by_cases hv : x.rating = v
        · rw [if_pos hv, if_pos hv]
          simp [hy]
        · rw [if_neg hv, if_neg hv]
      · by_cases hv : x.rating = v
        · rw [if_pos hv, if_pos hv]
          simp [hy]
        · rw [if_neg hv, if_neg hv]

end AirbnbScraper

namespace AirbnbScraper

theorem insertionFold_aux (T : List Listing) :
    ∀ S, List.Sorted ratingGE S →
      List.Sorted ratingGE (T.foldl (fun acc x => insertRated x acc) S) ∧
      ∀ v : ℚ, (T.foldl (fun acc x => insertRated x acc) S).filter (fun a => a.rating = v) =
        (S.filter fun a => a.rating = v) ++ (T.filter fun a => a.rating = v) := by
  induction T with
  | nil =>
    intro S hS
    exact ⟨hS, fun v => by simp⟩
  | cons x T ih =>
    intro S hS
    rcases ih (insertRated x S) (sorted_insertRated x S hS) with ⟨h1, h2⟩
    refine ⟨h1, fun v => ?_⟩
    rw [List.foldl_cons, h2 v, filter_insertRated x v S hS, List.filter_cons]
    by_cases hv : x.rating = v
    · rw [if_pos hv]
      simp [hv]
    · rw [if_neg hv]
      simp [hv]

theorem sorted_insertionFold (l : List Listing) :
    List.Sorted ratingGE (insertionFold l) :=
  (insertionFold_aux l [] (by simp)).1

theorem filter_insertionFold (l : List Listing) (v : ℚ) :
    (insertionFold l).filter (fun a => a.rating = v) = l.filter fun a => a.rating = v := by
  have := (insertionFold_aux l [] (by simp)).2 v
  simpa [insertionFold] using this

theorem filter_orderedInsert (x : Listing) (v : ℚ) : ∀ (l : List Listing),
    List.Sorted ratingGE l →
    (l.orderedInsert ratingGE x).filter (fun a => a.rating = v) =
      (if x.rating = v then x :: (l.filter fun a => a.rating = v)
       else l.filter fun a => a.rating = v) := by
  intro l
  induction l with
  | nil =>
    intro _
    by_cases hv : x.rating = v
    · simp [List.orderedInsert, hv]
    · simp [List.orderedInsert, hv]
  | cons y ys ih =>
    intro hs
    rw [List.sorted_cons] at hs
    rw [List.orderedInsert]
    by_cases h : ratingGE x y
    · rw [if_pos h, List.filter_cons, List.filter_cons]
      by_cases hv : x.rating = v
      · rw [if_pos hv]
        simp [hv]
      · rw [if_neg hv]
        simp [hv]
    · rw [if_neg h, List.filter_cons, List.filter_cons, ih hs.2]
      have hxy : x.rating < y.rating := lt_of_not_le h
      by_cases hy : y.rating = v
      · have hv : ¬ x.rating = v := by
          intro hbad
          rw [hbad, ← hy] at hxy
          exact absurd hxy (lt_irrefl _)
        rw [if_neg hv, if_neg hv]
      · by_cases hv : x.rating = v
        · rw [if_pos hv, if_pos hv]
          simp [hy]
        · rw [if_neg hv, if_neg hv]

theorem filter_specStableSortDesc (l : List Listing) (v : ℚ) :
    (specStableSortDesc l).filter (fun a => a.rating = v) = l.filter fun a => a.rating = v := by
  induction l with
  | nil => rfl
  | cons x xs ih =>
    rw [specStableSortDesc, List.insertionSort,
      filter_orderedInsert x v _ (List.sorted_insertionSort ratingGE xs), List.filter_cons,
      show List.insertionSort ratingGE xs = specStableSortDesc xs from rfl, ih]
    by_cases hv : x.rating = v
    · rw [if_pos hv]
      simp [hv]
    · rw [if_neg hv]
      simp [hv]

end AirbnbScraper

namespace AirbnbScraper

/-- A list sorted by rating (descending) is determined by its per-rating
filters: sortedness fixes the interleaving across rating classes and the
filters fix each class's content and order. -/
theorem stable_sorted_unique : ∀ (l₁ l₂ : List Listing),
    List.Sorted ratingGE l₁ → List.Sorted ratingGE l₂ →
    (∀ v : ℚ, l₁.filter (fun a => a.rating = v) = l₂.filter (fun a => a.rating = v)) →
    l₁ = l₂ := by
  intro l₁
  induction l₁ with
  | nil =>
    intro l₂ _ _ hf
    cases l₂ with
    | nil => rfl
    | cons y ys =>
      have h := hf y.rating
      rw [List.filter_cons] at h
      simp at h
  | cons x xs ih =>
    intro l₂ h₁ h₂ hf
    cases l₂ with
    | nil =>
      have h := hf x.rating
      rw [List.filter_cons] at h
      simp at h
    | cons y ys =>
      have hmemx : x ∈ y :: ys := by
        have h := hf x.rating
        have hx : x ∈ (y :: ys).filter (fun a => a.rating = x.rating) := by
          rw [← h, List.filter_cons]
          simp
        exact List.mem_of_mem_filter hx
      have hmemy : y ∈ x :: xs := by
        have h := hf y.rating
        have hy : y ∈ (x :: xs).filter (fun a => a.rating = y.rating) := by
          rw [h, List.filter_cons]
          simp
        exact List.mem_of_mem_filter hy
      have hxy : x.rating ≤ y.rating := by
        rcases List.mem_cons.mp hmemx with rfl | hm
        · exact le_refl _
        · exact List.rel_of_sorted_cons h₂ x hm
      have hyx : y.rating ≤ x.rating := by
        rcases List.mem_cons.mp hmemy with rfl | hm
        · exact le_refl _
        · exact List.rel_of_sorted_cons h₁ y hm
      have hr : y.rating = x.rating := le_antisymm hyx hxy
      have hxyeq : x = y := by
        have h := hf x.rating
        rw [List.filter_cons, List.filter_cons] at h
        simp [hr] at h
        exact h.1
      subst hxyeq
      have htails : ∀ v : ℚ, xs.filter (fun a => a.rating = v) =
          ys.filter (fun a => a.rating = v) := by
        intro v
        have h := hf v
        rw [List.filter_cons, List.filter_cons] at h
        by_cases hv : x.rating = v
        · simp only [hv, decide_eq_true_eq] at h
          simp [hv] at h
          exact h
        · simpa [hv] using h
      rw [ih ys h₁.of_cons h₂.of_cons htails]

/-- Go's left-to-right insertion sort is the stable descending sort. -/
theorem insertionFold_eq_spec (l : List Listing) :
    insertionFold l = specStableSortDesc l :=
  stable_sorted_unique _ _ (sorted_insertionFold l)
    (List.sorted_insertionSort ratingGE l)
    (fun v => by rw [filter_insertionFold, filter_specStableSortDesc])

end AirbnbScraper

namespace AirbnbScraper

theorem lget_at_len (A : List Listing) (b : Listing) (B : List Listing) :
    lget (A ++ b :: B) A.length = b := by
  rw [lget, List.getD_eq_getElem?_getD, List.getElem?_append_right (le_refl A.length)]
  simp

theorem lget_at_len_succ (A : List Listing) (b c : Listing) (B : List Listing) :
    lget (A ++ b :: c :: B) (A.length + 1) = c := by
  rw [lget, List.getD_eq_getElem?_getD,
    List.getElem?_append_right (Nat.le_succ_of_le (le_refl A.length))]
  simp

theorem lswap_adj (A : List Listing) (b c : Listing) (B : List Listing) :
    lswap (A ++ b :: c :: B) (A.length + 1) A.length = A ++ c :: b :: B := by
  have hb : A.length + 1 < (A ++ b :: c :: B).length := by
    simp [List.length_append]
  have hb2 : A.length < (A ++ b :: c :: B).length := by
    simp [List.length_append]
  rw [lswap, if_pos ⟨hb, hb2⟩, lget_at_len, lget_at_len_succ]
  have e1 : (A ++ b :: c :: B).set (A.length + 1) b = A ++ b :: b :: B := by
    rw [List.set_append_right _ _ (Nat.le_succ_of_le (le_refl A.length))]
    have h1 : A.length + 1 - A.length = 1 := by omega
    rw [h1]
    rfl
  have e2 : (A ++ b :: b :: B).set A.length c = A ++ c :: b :: B := by
    rw [List.set_append_right _ _ (le_refl A.length)]
    rw [Nat.sub_self]
    rfl

  rw [e1, e2]

theorem insertRated_append_singleton_of_lt {x y : Listing} (h : y.rating < x.rating) :
    ∀ Q : List Listing, insertRated x (Q ++ [y]) = insertRated x Q ++ [y] := by
  intro Q
  induction Q with
  | nil => simp [insertRated, h]
  | cons q Q ih =>
    rw [List.cons_append, insertRated, insertRated]
    by_cases hq : q.rating < x.rating
    · rw [if_pos hq, if_pos hq]
      simp
    · rw [if_neg hq, if_neg hq, ih]
      simp

theorem insertRated_append_of_ge {x : Listing} : ∀ {l : List Listing},
    (∀ z ∈ l, ¬ z.rating < x.rating) → insertRated x l = l ++ [x] := by
  intro l
  induction l with
  | nil => intro _; rfl
  | cons y ys ih =>
    intro h
    rw [insertRated, if_neg (h y (List.mem_cons_self y ys)), ih fun z hz =>
      h z (List.mem_cons_of_mem y hz)]
    rfl

theorem bubbleUpL_spec (x : Listing) (R : List Listing) : ∀ (S : List Listing),
    List.Sorted ratingGE S →
    bubbleUpL ratingLT 0 (S ++ x :: R) S.length = insertRated x S ++ R := by
  intro S
  induction S using List.reverseRecOn generalizing R with
  | nil =>
    intro _
    simp [bubbleUpL, insertRated]
  | append_singleton Q y ih =>
    intro hs
    have hQlen : (Q ++ [y]).length = Q.length + 1 := by simp
    have hL : (Q ++ [y]) ++ x :: R = Q ++ y :: x :: R := by simp
    rw [hQlen, hL, bubbleUpL]
    rw [lget_at_len_succ, lget_at_len]
    have hcond : (0 ≤ Q.length && ratingLT x y) = ratingLT x y := by
      simp
    rw [hcond, ratingLT]
    by_cases hxy : y.rating < x.rating
    · rw [if_pos (by simp [hxy]), lswap_adj]
      have hQs : List.Sorted ratingGE Q := (List.pairwise_append.mp hs).1
      rw [ih (y :: R) hQs, insertRated_append_singleton_of_lt hxy]
      simp
    · rw [if_neg (by simp [hxy])]
      have hall : ∀ z ∈ Q ++ [y], ¬ z.rating < x.rating := by
        intro z hz
        rcases List.mem_append.mp hz with hz | hz
        · have hzy : ratingGE z y :=
            (List.pairwise_append.mp hs).2.2 z hz y (List.mem_singleton_self y)
          have hyz : y.rating ≤ z.rating := hzy
          exact not_lt.mpr (le_trans (le_of_not_lt hxy) hyz)
        · rw [List.mem_singleton.mp hz]
          exact hxy
      rw [insertRated_append_of_ge hall]
      simp

theorem insLoopL_spec (T : List Listing) : ∀ (S : List Listing) (b fuel : ℕ),
    List.Sorted ratingGE S → b = S.length + T.length → T.length < fuel →
    insLoopL ratingLT 0 b fuel (S ++ T) S.length =
      T.foldl (fun acc x => insertRated x acc) S := by
  induction T with
  | nil =>
    intro S b fuel hs hb hfuel
    cases fuel with
    | zero => exact absurd hfuel (by omega)
    | succ f =>
      rw [insLoopL, if_neg (by simp at hb; omega)]
      simp
  | cons x T ih =>
    intro S b fuel hs hb hfuel
    cases fuel with
    | zero => exact absurd hfuel (by omega)
    | succ f =>
      rw [insLoopL, if_pos (by simp at hb; omega)]
      rw [bubbleUpL_spec x T S hs]
      have hlen : S.length + 1 = (insertRated x S).length := (length_insertRated x S).symm
      rw [hlen]
      rw [ih (insertRated x S) b f (sorted_insertRated x S hs)
        (by rw [← hlen]; simp at hb ⊢; omega) (by simp at hfuel; omega)]
      rfl

/-- `insertionSort_func(data, 0, n)` on an `n`-element slice is the stable
descending insertion sort. -/
theorem insertionSortL_eq (l : List Listing) :
    insertionSortL ratingLT l 0 l.length = insertionFold l := by
  cases l with
  | nil =>
    rw [insertionSortL, insLoopL]
    simp [insertionFold]
  | cons x rest =>
    rw [insertionSortL, insertionFold]
    show insLoopL ratingLT 0 ([x] ++ rest).length (([x] ++ rest).length + 1) ([x] ++ rest)
      ([x] : List Listing).length = List.foldl (fun acc x => insertRated x acc) [] (x :: rest)
    rw [insLoopL_spec rest [x] ([x] ++ rest).length (([x] ++ rest).length + 1)
      (List.sorted_singleton x) (by simp; omega) (by simp; omega)]
    rfl

set_option maxHeartbeats 2000000 in
theorem pdqsortLoop_small (f : ℕ) (l : List Listing) (n limit : ℕ) (h : n - 0 ≤ 12) :
    pdqsortLoop ratingLT (f + 1) l 0 n limit true true = insertionSortL ratingLT l 0 n := by
  rw [pdqsortLoop, if_pos h]

/-- For at most 12 elements `sort.Slice` takes the insertion-sort path and
therefore computes the stable descending sort. -/
theorem goSortSlice_stable_of_le_12 (l : List Listing) (h : l.length ≤ 12) :
    goSortSlice ratingLT l = specStableSortDesc l := by
  show pdqsortLoop ratingLT (4 * l.length + 64) l 0 l.length (bitsLen l.length) true true =
    specStableSortDesc l
  have hf : 4 * l.length + 64 = (4 * l.length + 63) + 1 := by omega
  rw [hf, pdqsortLoop_small (4 * l.length + 63) l l.length (bitsLen l.length)
    (by simpa using h)]
  rw [insertionSortL_eq l]
  exact insertionFold_eq_spec l

end AirbnbScraper

namespace AirbnbScraper

theorem take5_eq (L : List Listing) : (if 5 < L.length then L.take 5 else L) = L.take 5 := by
  by_cases h : 5 < L.length
  · rw [if_pos h]
  · rw [if_neg h]
    exact (List.take_of_length_le (by omega)).symm

theorem generateV1_topRated (listings : List Listing) :
    (generateV1 listings).topRated = (goSortSlice ratingLT (ratedOf listings)).take 5 := by
  by_cases h : listings = []
  · subst h
    rfl
  · rw [generateV1, if_neg h]
    exact take5_eq _

/-- A rating-only listing used in the stability counterexample. -/
def rl (t : String) (r : ℚ) : Listing := ⟨"airbnb", t, 0, "", r, t, ""⟩

/-- Thirteen rated listings on which `sort.Slice`'s pdqsort reorders equal
ratings: its top five is `l09, l01, l03, l05, l07` while the stable order
is `l01, l03, l05, l07, l09`. -/
def stabilityCex : List Listing :=
  [rl "l00" 3, rl "l01" 5, rl "l02" 1, rl "l03" 5, rl "l04" 2, rl "l05" 5,
   rl "l06" 3, rl "l07" 5, rl "l08" 4, rl "l09" 5, rl "l10" 1, rl "l11" 5,
   rl "l12" 2]

/-- C5 (counterexample): on a batch of 13 rated listings, `Generate`'s
TopRated is NOT the first five of the stable descending sort — with more
than 12 elements `sort.Slice` partitions, and its swaps reorder listings
of equal rating. -/
theorem generateV1_topRated_not_stable :
    (generateV1 stabilityCex).topRated ≠
      (specStableSortDesc (ratedOf stabilityCex)).take 5 := by
  rw [generateV1_topRated]
  decide

/-- C5 (amended): for batches with at most 12 rated listings (where
`sort.Slice` runs its insertion sort), TopRated is exactly the stable
descending-by-rating sort of the records with positive rating, truncated
to at most 5 — equal ratings retain their relative input order.  For
larger batches the pdqsort path gives no such guarantee
(`generateV1_topRated_not_stable`). -/
theorem generateV1_topRated_stable_of_le_12 (listings : List Listing)
    (h : (ratedOf listings).length ≤ 12) :
    (generateV1 listings).topRated = (specStableSortDesc (ratedOf listings)).take 5 := by
  rw [generateV1_topRated, goSortSlice_stable_of_le_12 _ h]

/-- The five listings of the repository's own `insights_test.go` sample. -/
def villaA : Listing := ⟨"airbnb", "Villa A", 200, "Bangkok", mkRat 49 10, "https://airbnb.com/rooms/1", ""⟩

def studioB : Listing := ⟨"airbnb", "Studio B", 50, "Bangkok", mkRat 45 10, "https://airbnb.com/rooms/2", ""⟩

def loftC : Listing := ⟨"airbnb", "Loft C", 120, "Tokyo", mkRat 48 10, "https://airbnb.com/rooms/3", ""⟩

def cabinD : Listing := ⟨"airbnb", "Cabin D", 300, "Bali", 0, "https://airbnb.com/rooms/4", ""⟩

def flatE : Listing := ⟨"airbnb", "Flat E", 0, "Tokyo", mkRat 47 10, "https://airbnb.com/rooms/5", ""⟩

def sampleListings : List Listing := [villaA, studioB, loftC, cabinD, flatE]

/-- Witness for `generateV1_topRated_stable_of_le_12` at the test sample. -/
theorem generateV1_topRated_stable_witness :
    (ratedOf sampleListings).length ≤ 12 ∧
      (generateV1 sampleListings).topRated =
        (specStableSortDesc (ratedOf sampleListings)).take 5 :=
  ⟨by decide, generateV1_topRated_stable_of_le_12 sampleListings (by decide)⟩

end AirbnbScraper

namespace AirbnbScraper

/-! ### Claim C1: MostExpensive -/

/-- Running maximum of prices, as `Generate`'s loop accumulates it. -/
def listMaxFrom (init : ℚ) (ls : List Listing) : ℚ :=
  ls.foldl (fun m l => max m l.price) init

theorem le_listMaxFrom (ls : List Listing) : ∀ init : ℚ, init ≤ listMaxFrom init ls := by
  induction ls with
  | nil => intro init; exact le_refl init
  | cons l ls ih =>
    intro init
    exact le_trans (le_max_left init l.price) (ih (max init l.price))

theorem ite_lt_max (a b : ℚ) : (if a < b then b else a) = max a b := by
  rcases lt_or_le a b with h | h
  · rw [if_pos h, max_eq_right h.le]
  · rw [if_neg (not_lt.mpr h), max_eq_left h]

/-- What `Generate`'s loop leaves in `report.MostExpensive`: the first
listing whose price equals the final maximum, provided that maximum
strictly exceeds the starting value `st.maxP`; otherwise whatever
`st.mostExp` held. -/
theorem priceFold_mostExp (ls : List Listing) : ∀ st : PriceStats,
    (ls.foldl priceStep st).mostExp =
      (if st.maxP < listMaxFrom st.maxP ls then
        ls.find? (fun l => l.price = listMaxFrom st.maxP ls)
       else st.mostExp) := by
  induction ls with
  | nil =>
    intro st
    rw [List.foldl_nil, listMaxFrom, List.foldl_nil, if_neg (lt_irrefl st.maxP)]
  | cons l ls ih =>
    intro st
    rw [List.foldl_cons, ih (priceStep st l)]
    have hstep : (priceStep st l).maxP = max st.maxP l.price := ite_lt_max st.maxP l.price
    have hM : listMaxFrom (priceStep st l).maxP ls = listMaxFrom st.maxP (l :: ls) := by
      rw [hstep]
      rfl
    rw [hM]
    have hle : max st.maxP l.price ≤ listMaxFrom st.maxP (l :: ls) := by
      rw [show listMaxFrom st.maxP (l :: ls) = listMaxFrom (max st.maxP l.price) ls from rfl]
      exact le_listMaxFrom ls (max st.maxP l.price)
    have hme : (priceStep st l).mostExp = if st.maxP < l.price then some l else st.mostExp := rfl
    by_cases h1 : st.maxP < l.price
    · have haM : st.maxP < listMaxFrom st.maxP (l :: ls) :=
        lt_of_lt_of_le (lt_of_lt_of_le h1 (le_max_right st.maxP l.price)) hle
      rw [if_pos haM]
      by_cases h2 : l.price < listMaxFrom st.maxP (l :: ls)
      · rw [if_pos (by rw [hstep]; rw [max_eq_right h1.le]; exact h2)]
        rw [List.find?_cons, show (decide (l.price = listMaxFrom st.maxP (l :: ls))) = false
          from by simp [ne_of_lt h2]]
      · have hPeq : l.price = listMaxFrom st.maxP (l :: ls) := by
          have : max st.maxP l.price = l.price := max_eq_right h1.le
          rw [this] at hle
          exact le_antisymm hle (le_of_not_lt h2)
        rw [if_neg (by rw [hstep, max_eq_right h1.le]; exact not_lt.mpr hPeq.ge)]
        rw [hme, if_pos h1]
        rw [List.find?_cons, show (decide (l.price = listMaxFrom st.maxP (l :: ls))) = true
          from by simp [hPeq]]
    · have hmaxeq : (priceStep st l).maxP = st.maxP := by
        rw [hstep, max_eq_left (le_of_not_lt h1)]
      rw [hmaxeq, hme, if_neg h1]
      by_cases h2 : st.maxP < listMaxFrom st.maxP (l :: ls)
      · rw [if_pos h2, if_pos h2]
        have hne : l.price ≠ listMaxFrom st.maxP (l :: ls) :=
          ne_of_lt (lt_of_le_of_lt (le_of_not_lt h1) h2)
        rw [List.find?_cons, show (decide (l.price = listMaxFrom st.maxP (l :: ls))) = false
          from by simp [hne]]
      · rw [if_neg h2, if_neg h2]

/-- C1 (counterexample): a batch with one listing of positive price has
`MostExpensive = nil` — `Generate` only sets it on a strict improvement
past the first priced listing's price, which never fires here. -/
theorem generateV1_mostExpensive_nil_cex :
    0 < (⟨"airbnb", "Solo", 100, "", 0, "u1", ""⟩ : Listing).price ∧
      (generateV1 [⟨"airbnb", "Solo", 100, "", 0, "u1", ""⟩]).mostExpensive = none := by
  exact ⟨by decide, by decide⟩

/-- C1 (amended): when listings with positive price exist, MostExpensive
references the first record achieving the maximum price over them iff
that maximum strictly exceeds the price of the *first* priced record;
otherwise (first priced record already attains the maximum — e.g. a
single priced record, or a batch whose priced records all tie)
MostExpensive is nil. -/
theorem generateV1_mostExpensive_spec (listings : List Listing) (p0 : Listing)
    (rest : List Listing) (hp : pricedOf listings = p0 :: rest) :
    (generateV1 listings).mostExpensive =
      (if p0.price < listMaxFrom p0.price (p0 :: rest) then
        (p0 :: rest).find? (fun l => l.price = listMaxFrom p0.price (p0 :: rest))
       else none) := by
  have hne : listings ≠ [] := by
    intro h
    rw [h] at hp
    exact List.noConfusion hp
  have h2 : priceStatsOf listings = priceFold (p0 :: rest) p0 := by
    rw [priceStatsOf, hp]
  rw [generateV1, if_neg hne]
  show (priceStatsOf listings).mostExp = _
  rw [h2, priceFold, priceFold_mostExp]

/-- Witness for `generateV1_mostExpensive_spec` at the test sample, where
the maximum 300 exceeds the first priced record's 200 and MostExpensive
is the 300-priced listing. -/
theorem generateV1_mostExpensive_witness :
    pricedOf sampleListings = villaA :: [studioB, loftC, cabinD] ∧
      (generateV1 sampleListings).mostExpensive =
        (if villaA.price < listMaxFrom villaA.price (villaA :: [studioB, loftC, cabinD]) then
          (villaA :: [studioB, loftC, cabinD]).find?
            (fun l => l.price = listMaxFrom villaA.price (villaA :: [studioB, loftC, cabinD]))
         else none) :=
  ⟨by decide,
    generateV1_mostExpensive_spec sampleListings villaA [studioB, loftC, cabinD] (by decide)⟩

end AirbnbScraper

namespace AirbnbScraper

/-! ### RetryConfig.Do (utils retry helper bundled with storage/postgres_writer.go)

`fn` models the operation: `fn i` is the outcome of its `i`-th invocation
(`none` = success, `some e` = the Go error).  `Do` returns the number of
invocations together with the final result; the wrapped error of
`fmt.Errorf("%s failed after %d attempts: %w", ...)` is kept structurally
(`RetryError`), so the chain stays inspectable.  Sleeps do not affect the
returned value; the doubling `delay *= 2` is threaded but unobserved. -/

/-- The error built on exhaustion: operation name, attempt count, and the
`%w`-wrapped last error (`none` can only occur when the loop never ran,
i.e. `MaxAttempts ≤ 0`). -/
structure RetryError (ε : Type) where
  op : String
  attempts : ℕ
  wrapped : Option ε
deriving DecidableEq

/-- `utils.RetryConfig` (Logger omitted; it only logs). -/
structure RetryConfig where
  maxAttempts : ℕ
  baseDelay : ℚ

/-- The `for attempt := 1; attempt <= r.MaxAttempts; attempt++` loop;
`remaining = maxA - attempt + 1`. -/
def doLoop {ε : Type} (fn : ℕ → Option ε) (name : String) (maxA : ℕ) :
    ℕ → ℕ → ℚ → Option ε → ℕ × Option (RetryError ε)
  | 0, _, _, lastErr => (0, some ⟨name, maxA, lastErr⟩)
  | remaining + 1, attempt, delay, _ =>
    match fn attempt with
    | none => (1, none)
    | some e =>
      let (c, res) := doLoop fn name maxA remaining (attempt + 1) (delay * 2) (some e)
      (c + 1, res)

/-- `(*RetryConfig).Do(operationName, fn)`; returns (number of invocations
of `fn`, `nil` or the wrapping error). -/
def RetryConfig.Do {ε : Type} (r : RetryConfig) (name : String) (fn : ℕ → Option ε) :
    ℕ × Option (RetryError ε) :=
  doLoop fn name r.maxAttempts r.maxAttempts 1 r.baseDelay none

theorem doLoop_all_fail {ε : Type} (fn : ℕ → Option ε) (errs : ℕ → ε)
    (hfn : ∀ i, fn i = some (errs i)) (name : String) (maxA : ℕ) :
    ∀ (remaining attempt : ℕ) (delay : ℚ) (last : Option ε), 1 ≤ remaining →
      doLoop fn name maxA remaining attempt delay last =
        (remaining, some ⟨name, maxA, some (errs (attempt + remaining - 1))⟩) := by
  intro remaining
  induction remaining with
  | zero => intro attempt delay last h; exact absurd h (by omega)
  | succ r ih =>
    intro attempt delay last _
    rw [doLoop, hfn attempt]
    show (fun p : ℕ × Option (RetryError ε) => (p.1 + 1, p.2))
      (doLoop fn name maxA r (attempt + 1) (delay * 2) (some (errs attempt))) = _
    rcases Nat.eq_zero_or_pos r with hr | hr
    · subst hr
      rw [show doLoop fn name maxA 0 (attempt + 1) (delay * 2) (some (errs attempt)) =
        (0, some ⟨name, maxA, some (errs attempt)⟩) from rfl]
      have : attempt + (0 + 1) - 1 = attempt := by omega
      rw [this]
    · rw [ih (attempt + 1) (delay * 2) (some (errs attempt)) hr]
      have : attempt + 1 + r - 1 = attempt + (r + 1) - 1 := by omega
      rw [this]

/-- C7: with `MaxAttempts = M ≥ 1` and an always-failing operation, `Do`
invokes the operation exactly `M` times and returns an error naming the
operation and the attempt count and wrapping the `M`-th underlying error;
with an operation failing exactly on its first two invocations and
`M ≥ 3`, `Do` returns `nil` after exactly 3 invocations. -/
theorem retryConfig_do_spec {ε : Type} :
    (∀ (r : RetryConfig) (name : String) (errs : ℕ → ε), 1 ≤ r.maxAttempts →
      r.Do name (fun i => some (errs i)) =
        (r.maxAttempts, some ⟨name, r.maxAttempts, some (errs r.maxAttempts)⟩)) ∧
    (∀ (r : RetryConfig) (name : String) (fn : ℕ → Option ε) (e1 e2 : ε),
      3 ≤ r.maxAttempts → fn 1 = some e1 → fn 2 = some e2 → fn 3 = none →
      r.Do name fn = (3, none)) := by
  constructor
  · intro r name errs h1
    rw [RetryConfig.Do,
      doLoop_all_fail (fun i => some (errs i)) errs (fun i => rfl) name r.maxAttempts
        r.maxAttempts 1 r.baseDelay none h1]
    have : 1 + r.maxAttempts - 1 = r.maxAttempts := by omega
    rw [this]
  · intro r name fn e1 e2 h3 hf1 hf2 hf3
    obtain ⟨k, hk⟩ : ∃ k, r.maxAttempts = k + 3 := ⟨r.maxAttempts - 3, by omega⟩
    rw [RetryConfig.Do, hk]
    show doLoop fn name (k + 3) (k + 2 + 1) 1 r.baseDelay none = (3, none)
    rw [doLoop, hf1]
    show (fun p : ℕ × Option (RetryError ε) => (p.1 + 1, p.2))
      (doLoop fn name (k + 3) (k + 1 + 1) 2 (r.baseDelay * 2) (some e1)) = (3, none)
    rw [doLoop, hf2]
    show (fun p : ℕ × Option (RetryError ε) => (p.1 + 1 + 1, p.2))
      (doLoop fn name (k + 3) (k + 0 + 1) 3 (r.baseDelay * 2 * 2) (some e2)) = (3, none)
    rw [doLoop, hf3]

/-- Witness for `retryConfig_do_spec` with `ε = String`, `M = 3`: the
always-failing part and the fails-twice-then-succeeds part, each at
concrete inputs. -/
theorem retryConfig_do_witness :
    (RetryConfig.Do ⟨3, 1⟩ "op" (fun _ => some "boom") =
      (3, some ⟨"op", 3, some "boom"⟩)) ∧
    (RetryConfig.Do ⟨3, 1⟩ "op" (fun i => if i ≤ 2 then some "boom" else none) = (3, none)) :=
  ⟨by
    have h := (retryConfig_do_spec (ε := String)).1 ⟨3, 1⟩ "op" (fun _ => "boom") (by decide)
    exact h,
   (retryConfig_do_spec (ε := String)).2 ⟨3, 1⟩ "op"
    (fun i => if i ≤ 2 then some "boom" else none) "boom" "boom" (by decide) rfl rfl rfl⟩

end AirbnbScraper

namespace AirbnbScraper

/-! ### WorkerPool rate gate and URLSet (src/unnamed/part_008)

The mutex in `enforceRateLimit` serialises gate passes, so every
concurrent execution — any `maxWorkers` — is a sequence of passes; `now`
is the (arbitrary) instant a worker enters the critical section, on the
logical clock of the header conventions.  `time.Since(lastRequest) =
now - lastRequest`; when it is below `minInterval` the worker sleeps the
difference, so `time.Now()` on waking — the recorded `lastRequest` and
the task's start instant — is `lastRequest + minInterval`. -/

/-- `utils.WorkerPool` configuration (semaphore and WaitGroup are
control-flow only and carry no observable state for the claims). -/
structure WorkerPool where
  maxWorkers : ℕ
  rateLimitMs : ℕ

/-- `(*WorkerPool).enforceRateLimit`: returns the new `lastRequest`,
which is also the instant the gated task starts. -/
def WorkerPool.enforceRateLimit (wp : WorkerPool) (lastRequest now : ℚ) : ℚ :=
  if now - lastRequest < (wp.rateLimitMs : ℚ) then lastRequest + (wp.rateLimitMs : ℚ) else now

/-- Recorded start instants of a sequence of gate passes entering the
critical section at instants `entries` (initial `lastRequest` value
`last0`, set by `NewWorkerPool` to the creation instant). -/
def gateStarts (wp : WorkerPool) (last0 : ℚ) : List ℚ → List ℚ
  | [] => []
  | t :: ts =>
    let s := wp.enforceRateLimit last0 t
    s :: gateStarts wp s ts

theorem le_enforceRateLimit (wp : WorkerPool) (lastRequest now : ℚ) :
    lastRequest + (wp.rateLimitMs : ℚ) ≤ wp.enforceRateLimit lastRequest now := by
  rw [WorkerPool.enforceRateLimit]
  by_cases h : now - lastRequest < (wp.rateLimitMs : ℚ)
  · rw [if_pos h]
  · rw [if_neg h]
    push_neg at h
    linarith

/-- C8: however many tasks are submitted, whatever `maxWorkers` is and at
whatever instants workers reach the gate, consecutive recorded task-start
instants differ by at least `minInterval = rateLimitMs` — the gate is
global to the pool, not per-worker. -/
theorem workerPool_rate_spacing (wp : WorkerPool) (last0 : ℚ) (entries : List ℚ) :
    List.Chain' (fun a b => a + (wp.rateLimitMs : ℚ) ≤ b) (gateStarts wp last0 entries) := by
  induction entries generalizing last0 with
  | nil => exact List.chain'_nil
  | cons t ts ih =>
    rw [gateStarts]
    rw [List.chain'_cons']
    refine ⟨?_, ih (wp.enforceRateLimit last0 t)⟩
    intro b hb
    cases ts with
    | nil => simp [gateStarts] at hb
    | cons t2 ts2 =>
      rw [gateStarts] at hb
      simp only [List.head?_cons, Option.mem_def, Option.some_inj] at hb
      rw [← hb]
      exact le_enforceRateLimit wp (wp.enforceRateLimit last0 t) t2

/-- `utils.URLSet`: the `seen` map's key set, mutex omitted (operations
are the linearised critical sections). -/
structure URLSet where
  seen : List String

/-- `(*URLSet).Add`: true iff newly added, marking the key present. -/
def URLSet.Add (s : URLSet) (url : String) : Bool × URLSet :=
  if url ∈ s.seen then (false, s)
  else (true, { seen := url :: s.seen })

/-- `(*URLSet).Contains`. -/
def URLSet.Contains (s : URLSet) (url : String) : Bool := url ∈ s.seen

/-- `n` linearised `Add` calls of one key: the result list and final set. -/
def addN (k : String) : ℕ → URLSet → List Bool × URLSet
  | 0, s => ([], s)
  | n + 1, s =>
    let (b, s1) := URLSet.Add s k
    let (bs, s2) := addN k n s1
    (b :: bs, s2)

theorem addN_mem (k : String) : ∀ (n : ℕ) (s : URLSet), k ∈ s.seen →
    addN k n s = (List.replicate n false, s) := by
  intro n
  induction n with
  | zero => intro s _; rfl
  | succ m ih =>
    intro s hk
    rw [addN]
    rw [show URLSet.Add s k = (false, s) from by rw [URLSet.Add, if_pos hk]]
    show (false :: (addN k m s).1, (addN k m s).2) = (List.replicate (m + 1) false, s)
    rw [ih s hk]
    rfl

/-- C9: `Add` returns true iff the key was absent and always leaves it
present; of `n ≥ 1` concurrent `Add`s of one absent key — linearised by
the mutex into `n` sequential calls — exactly the first returns true and
the other `n - 1` return false. -/
theorem urlset_add_atomic :
    (∀ (s : URLSet) (k : String),
      (((s.Add k).1 = true) ↔ s.Contains k = false) ∧ (s.Add k).2.Contains k = true) ∧
    (∀ (s : URLSet) (k : String) (n : ℕ), s.Contains k = false → 1 ≤ n →
      (addN k n s).1 = true :: List.replicate (n - 1) false ∧
        ((addN k n s).1.count true = 1)) := by
  constructor
  · intro s k
    constructor
    · rw [URLSet.Add, URLSet.Contains]
      by_cases h : k ∈ s.seen
      · rw [if_pos h]
        simp [h]
      · rw [if_neg h]
        simp [h]
    · rw [URLSet.Add, URLSet.Contains]
      by_cases h : k ∈ s.seen
      · rw [if_pos h]
        simp [h]
      · rw [if_neg h]
        simp
  · intro s k n hk h1
    obtain ⟨m, hm⟩ : ∃ m, n = m + 1 := ⟨n - 1, by omega⟩
    subst hm
    have hk2 : k ∉ s.seen := by
      rw [URLSet.Contains] at hk
      simpa using hk
    have hstep : addN k (m + 1) s =
        (true :: List.replicate m false, URLSet.mk (k :: s.seen)) := by
      rw [addN]
      rw [show URLSet.Add s k = (true, URLSet.mk (k :: s.seen)) from by
        rw [URLSet.Add, if_neg hk2]]
      show (true :: (addN k m (URLSet.mk (k :: s.seen))).1,
        (addN k m (URLSet.mk (k :: s.seen))).2) = _
      rw [addN_mem k m (URLSet.mk (k :: s.seen)) (List.mem_cons_self k s.seen)]
    rw [hstep]
    constructor
    · simp
    · simp [List.count_replicate]

end AirbnbScraper

namespace AirbnbScraper

/-- Witness for the C9 theorem: three linearised `Add`s of a fresh key on
the empty set — the first returns true, the other two false. -/
theorem urlset_add_atomic_witness :
    (URLSet.mk []).Contains "https://a" = false ∧ 1 ≤ 3 ∧
      (addN "https://a" 3 (URLSet.mk [])).1 = true :: List.replicate 2 false ∧
      (addN "https://a" 3 (URLSet.mk [])).1.count true = 1 :=
  ⟨by decide, by decide,
    (urlset_add_atomic.2 (URLSet.mk []) "https://a" 3 (by decide) (by decide)).1,
    (urlset_add_atomic.2 (URLSet.mk []) "https://a" 3 (by decide) (by decide)).2⟩

end AirbnbScraper

namespace AirbnbScraper

/-! ### C10: comparing the two Generate implementations

`generateV1` embeds services/insights.go, `generateV2` the variant in
src/unnamed/part_010.  They disagree already on `MostExpensive` for a
single positive-priced listing (v1 leaves it nil, v2 sets it), and on
`AirbnbListings` / `ListingsByLocation` (case folding, location
normalisation) and `MinPrice`/`MaxPrice` (v1 rounds, v2 does not).  They
do agree on `TotalListings`, `AveragePrice` and `TopRated`; the lemmas
below establish that. -/

/-- Sum of the prices of a list of listings. -/
def sumP (ls : List Listing) : ℚ := (ls.map fun l => l.price).sum

theorem sumP_cons (l : Listing) (ls : List Listing) :
    sumP (l :: ls) = l.price + sumP ls := by
  rw [sumP, sumP, List.map_cons, List.sum_cons]

theorem pricedOf_cons (l : Listing) (ls : List Listing) :
    pricedOf (l :: ls) = if 0 < l.price then l :: pricedOf ls else pricedOf ls := by
  by_cases h : 0 < l.price <;> simp [pricedOf, List.filter_cons, h]

theorem priceStep_total_fold (ls : List Listing) : ∀ st : PriceStats,
    (ls.foldl priceStep st).total = st.total + sumP ls := by
  induction ls with
  | nil => intro st; exact (add_zero st.total).symm
  | cons l ls ih =>
    intro st
    rw [List.foldl_cons, ih, sumP_cons]
    show st.total + l.price + sumP ls = st.total + (l.price + sumP ls)
    ring

theorem v2Step_total_fold (ls : List Listing) : ∀ st : StatsV2,
    (ls.foldl v2Step st).totalPrice = st.totalPrice + sumP (pricedOf ls) := by
  induction ls with
  | nil => intro st; exact (add_zero st.totalPrice).symm
  | cons l ls ih =>
    intro st
    rw [List.foldl_cons, ih, pricedOf_cons]
    by_cases h : 0 < l.price
    · have ht : (v2Step st l).totalPrice = st.totalPrice + l.price := by
        rw [v2Step, if_pos h]
      rw [if_pos h, sumP_cons, ht]
      ring
    · have ht : v2Step st l = st := by
        rw [v2Step, if_neg h]
      rw [if_neg h, ht]

/-- The price total of the services/insights.go loop is the plain sum of the
positive prices. -/
theorem priceStatsOf_total (listings : List Listing) :
    (priceStatsOf listings).total = sumP (pricedOf listings) := by
  rcases hp : pricedOf listings with _ | ⟨p0, rest⟩
  · rw [priceStatsOf, hp]
    rfl
  · rw [priceStatsOf, hp]
    show (priceFold (p0 :: rest) p0).total = sumP (p0 :: rest)
    rw [priceFold, priceStep_total_fold]
    exact zero_add _

/-- The price total of the part_010 loop is the same sum. -/
theorem statsV2Of_total (listings : List Listing) :
    (statsV2Of listings).totalPrice = sumP (pricedOf listings) := by
  rw [statsV2Of, v2Step_total_fold]
  exact zero_add _

theorem sumP_pricedOf_nonneg (listings : List Listing) :
    0 ≤ sumP (pricedOf listings) := by
  rw [sumP]
  apply List.sum_nonneg
  intro x hx
  rw [List.mem_map] at hx
  obtain ⟨l, hl, rfl⟩ := hx
  rw [pricedOf, List.mem_filter] at hl
  have := of_decide_eq_true hl.2
  linarith

/-- On nonnegative arguments the two `round2` helpers agree: truncating
`q * 100 + 0.5` toward zero equals rounding `q * 100` half away from zero. -/
theorem round2_eq_of_nonneg (q : ℚ) (hq : 0 ≤ q) : round2v1 q = round2v2 q := by
  rw [round2v1, round2v2, goTruncQ, mathRound,
    if_neg (not_lt.mpr (by linarith : (0 : ℚ) ≤ q * 100 + 1 / 2)),
    if_neg (not_lt.mpr (by linarith : (0 : ℚ) ≤ q * 100))]

theorem take_min_five (L : List Listing) : L.take (min 5 L.length) = L.take 5 := by
  rcases le_total 5 L.length with h | h
  · rw [min_eq_left h]
  · rw [min_eq_right h, List.take_length, List.take_of_length_le h]

theorem generateV2_topRated (listings : List Listing) :
    (generateV2 listings).topRated = (goSortSlice ratingLT (ratedOf listings)).take 5 := by
  by_cases h : listings = []
  · subst h
    rfl
  · rw [generateV2, if_neg h]
    exact take_min_five _

theorem generateV1_averagePrice (listings : List Listing) (h : listings ≠ []) :
    (generateV1 listings).averagePrice =
      (if pricedOf listings = [] then 0
       else round2v1 ((priceStatsOf listings).total / ((pricedOf listings).length : ℚ))) := by
  rw [generateV1, if_neg h]

theorem generateV2_averagePrice (listings : List Listing) (h : listings ≠ []) :
    (generateV2 listings).averagePrice =
      (if 0 < countWithPrice listings then
        round2v2 ((statsV2Of listings).totalPrice / (countWithPrice listings : ℚ))
       else 0) := by
  rw [generateV2, if_neg h]

/-- The single positive-priced listing on which the two implementations
disagree. -/
def soloL : Listing := ⟨"airbnb", "Solo", 100, "", 0, "u1", ""⟩

/-- C10 (counterexample): on a batch holding one listing with positive
price the services/insights.go Generate leaves `MostExpensive` nil while
the part_010 variant points it at that listing, so the two reports are
not equal. -/
theorem generate_equivalence_cex :
    (generateV1 [soloL]).mostExpensive = none ∧
      (generateV2 [soloL]).mostExpensive = some soloL ∧
      generateV1 [soloL] ≠ generateV2 [soloL] := by
  refine ⟨by decide, by decide, fun h => ?_⟩
  have h2 := congrArg InsightReport.mostExpensive h
  rw [show (generateV1 [soloL]).mostExpensive = none from by decide,
    show (generateV2 [soloL]).mostExpensive = some soloL from by decide] at h2
  exact Option.noConfusion h2

/-- C10 (amended): the two Generate implementations agree on
`TotalListings`, `AveragePrice` and `TopRated` for every input batch —
the average agrees because both divide the same positive-price sum by
the same count and the two `round2` helpers coincide on nonnegative
input, and TopRated agrees because both take (at most) the first five of
the same sorted slice. -/
theorem generate_v1_v2_agree (listings : List Listing) :
    (generateV1 listings).totalListings = (generateV2 listings).totalListings ∧
      (generateV1 listings).averagePrice = (generateV2 listings).averagePrice ∧
      (generateV1 listings).topRated = (generateV2 listings).topRated := by
  by_cases h : listings = []
  · subst h
    exact ⟨rfl, rfl, rfl⟩
  · refine ⟨?_, ?_, ?_⟩
    · rw [generateV1, generateV2, if_neg h, if_neg h]
    · rw [generateV1_averagePrice listings h, generateV2_averagePrice listings h]
      by_cases hp : pricedOf listings = []
      · have hc : ¬ 0 < countWithPrice listings := by
          rw [countWithPrice, hp]
          simp
        rw [if_pos hp, if_neg hc]
      · have hc : 0 < countWithPrice listings := by
          rw [countWithPrice]
          exact List.length_pos.mpr hp
        rw [if_neg hp, if_pos hc, priceStatsOf_total, statsV2Of_total, countWithPrice]
        exact round2_eq_of_nonneg _
          (div_nonneg (sumP_pricedOf_nonneg listings) (Nat.cast_nonneg _))
    · rw [generateV1_topRated, generateV2_topRated]

end AirbnbScraper
